import Mathlib

/-!
Verification of the open-english-dictionary build scripts.

This file shallowly embeds the two batch pipelines of the repository:

* `scripts/build_mdx_from_data.py` (the document pipeline): reads NDJSON
  shard files, validates each line, renders each record to an HTML block,
  accumulates the blocks in a word-keyed mapping with last-write-wins
  semantics and an overwrite counter, sorts, and writes an MDX artifact.
* `scripts/build_sqlite_from_data.py` (the relational pipeline): reads the
  same shards, validates identically, batches (word, raw-line) pairs and
  upserts them into a single `words(word, definition)` table with a unique
  index on `word`.

JSON values produced by `json.loads` are modelled by the inductive `JValue`.
Python dicts are modelled as ordered association lists; `dict.get` is
first-match lookup (JSON-derived dicts have distinct keys, so this agrees
with Python). A JSON `null` field and an absent field both surface as
Python `None`, so lookups default to `JValue.null`. `str.strip()` is
modelled by `pyStrip`, `str.lower()` by `pyLower` and string comparison
by `pyLt`, all executable over the character list of a string.
-/

/-- Python `str.strip()`: drop leading and trailing whitespace. -/
def pyStrip (s : String) : String :=
  ⟨((s.data.dropWhile Char.isWhitespace).reverse.dropWhile Char.isWhitespace).reverse⟩

/-- Python `str.lower()`. -/
def pyLower (s : String) : String :=
  ⟨s.data.map Char.toLower⟩

/-- Python `<` on strings: lexicographic comparison by code point. -/
def pyLtChars : List Char → List Char → Bool
  | [], [] => false
  | [], _ :: _ => true
  | _ :: _, [] => false
  | a :: as, b :: bs =>
      if a < b then true else if b < a then false else pyLtChars as bs

/-- Python `<` on strings. -/
def pyLt (s t : String) : Bool :=
  pyLtChars s.data t.data

/-- A JSON value as produced by Python's `json.loads`. Floating point
numbers carry their Python `str()` rendering, since no pipeline logic
inspects them beyond stringification. -/
inductive JValue where
  | null
  | bool (b : Bool)
  | int (n : Int)
  | float (repr : String)
  | str (s : String)
  | arr (items : List JValue)
  | obj (fields : List (String × JValue))

/-- `payload.get(k)` on a JSON-derived dict: the value of the first field
named `k`, with both a missing key and a JSON null surfacing as Python
`None` (here `JValue.null`). -/
def jget (fields : List (String × JValue)) (k : String) : JValue :=
  match fields.find? (fun p => p.1 == k) with
  | some p => p.2
  | none => JValue.null

/-- Python `str(b)` for a bool. -/
def pyStrBool (b : Bool) : String :=
  if b then "True" else "False"

mutual

/-- `compact_text` of build_mdx_from_data.py (lines 66-88): flatten an
arbitrary loosely-typed value into one string. The dict branch first
normalizes every field value (`compactPairs`) and then looks up `en`/`zh`
in the normalized pairs; this computes exactly
`compact_text(value.get("en"))` etc., see `compact_text_obj`. -/
def compact_text : JValue → String
  | .null => ""
  | .str s => pyStrip s
  | .bool b => pyStrBool b
  | .int n => toString n
  | .float r => r
  | .arr items =>
      String.intercalate "; " ((compactList items).filter (fun part => part ≠ ""))
  | .obj fields =>
      let pairs := compactPairs fields
      let en := ((pairs.find? (fun p => p.1 == "en")).map (·.2)).getD ""
      let zh := ((pairs.find? (fun p => p.1 == "zh")).map (·.2)).getD ""
      if en ≠ "" ∨ zh ≠ "" then
        String.intercalate " " ([en, zh].filter (fun part => part ≠ ""))
      else
        String.intercalate "; "
          ((pairs.filter (fun p => p.2 ≠ "")).map (fun p => p.1 ++ ": " ++ p.2))

/-- `[compact_text(item) for item in value]`. -/
def compactList : List JValue → List String
  | [] => []
  | v :: vs => compact_text v :: compactList vs

/-- Each dict field paired with the `compact_text` of its value. -/
def compactPairs : List (String × JValue) → List (String × String)
  | [] => []
  | p :: ps => (p.1, compact_text p.2) :: compactPairs ps

end

/-- CPython `repr` of a string (printable case): quote selection and
character escaping. -/
def pyReprStr (s : String) : String :=
  let sq : Char := Char.ofNat 39
  let q : Char := if s.data.contains sq ∧ ¬ s.data.contains '"' then '"' else sq
  let esc : Char → String := fun c =>
    if c = '\\' then "\\\\"
    else if c = q then "\\" ++ q.toString
    else if c = '\n' then "\\n"
    else if c = '\r' then "\\r"
    else if c = '\t' then "\\t"
    else c.toString
  q.toString ++ String.join (s.toList.map esc) ++ q.toString

mutual

/-- Python `repr()` on a JSON-derived value, as used by `str()` on
containers. String quoting and escaping follow CPython for printable
strings: single quotes unless the string holds a single quote and no
double quote; backslash, the quote character, and newline/carriage
return/tab are escaped. -/
def pyRepr : JValue → String
  | .null => "None"
  | .bool b => pyStrBool b
  | .int n => toString n
  | .float r => r
  | .str s => pyReprStr s
  | .arr items => "[" ++ String.intercalate ", " (pyReprList items) ++ "]"
  | .obj fields =>
      "\x7b" ++ String.intercalate ", " (pyReprPairs fields) ++ "\x7d"

def pyReprList : List JValue → List String
  | [] => []
  | v :: vs => pyRepr v :: pyReprList vs

def pyReprPairs : List (String × JValue) → List String
  | [] => []
  | p :: ps => (pyReprStr p.1 ++ ": " ++ pyRepr p.2) :: pyReprPairs ps

end

/-- Python `str()` on a JSON-derived value. -/
def pyStr : JValue → String
  | .str s => s
  | v => pyRepr v

/-- `text_from_value` of build_mdx_from_data.py (lines 58-63). -/
def text_from_value : JValue → String
  | .str s => s
  | .null => ""
  | v => pyStr v

/-- One character of `html.escape(s, quote=True)`: the five replacements
applied by the CPython `html` module. The module applies `str.replace`
for `&`, then `<`, `>`, `"` and the single quote; since every pattern is
a single character and no later pattern occurs in an earlier replacement
outside the already-consumed `&`, the chain is equivalent to this
character-wise map. -/
def escapeChar (c : Char) : String :=
  if c = '&' then "&amp;"
  else if c = '<' then "&lt;"
  else if c = '>' then "&gt;"
  else if c = '"' then "&quot;"
  else if c = Char.ofNat 39 then "&#x27;"
  else c.toString

/-- `html.escape` applied to every character of a string. -/
def escapeChars : List Char → String
  | [] => ""
  | c :: cs => escapeChar c ++ escapeChars cs

/-- `html.escape(s, quote=True)` of the Python standard library. -/
def htmlEscape (s : String) : String :=
  escapeChars s.data

/-- `PHONETIC_LABEL_ZH` of build_mdx_from_data.py (lines 14-17) as the
lookup `PHONETIC_LABEL_ZH.get(str(key).lower(), str(key))`. -/
def phoneticLabelZh (key : String) : String :=
  if pyLower key = "uk" then "英式"
  else if pyLower key = "us" then "美式"
  else key

/-- `render_phonetic` of build_mdx_from_data.py (lines 113-132). -/
def render_phonetic : JValue → String
  | .null => ""
  | .str s => pyStrip s
  | .arr items =>
      String.intercalate " / " ((compactList items).filter (fun part => part ≠ ""))
  | .obj fields =>
      String.intercalate " | "
        (((compactPairs fields).filter (fun p => p.2 ≠ "")).map
          (fun p => phoneticLabelZh p.1 ++ ": " ++ p.2))
  | v => compact_text v

/-- The `items` list computed by `render_string_list_section` of
build_mdx_from_data.py (lines 92-99). -/
def stringListItems : JValue → List String
  | .str s => if pyStrip s = "" then [] else [pyStrip s]
  | .arr xs => (compactList xs).filter (fun item => item ≠ "")
  | v => if compact_text v = "" then [] else [compact_text v]

/-- `render_string_list_section` of build_mdx_from_data.py (lines 91-110). -/
def render_string_list_section (title_zh : String) (value : JValue) : String :=
  let items := stringListItems value
  if items = [] then ""
  else
    "<section class=\"section\">"
      ++ "<h2 class=\"title\">" ++ htmlEscape title_zh ++ "</h2>"
      ++ "<ul>"
      ++ String.join (items.map (fun item => "<li>" ++ htmlEscape item ++ "</li>"))
      ++ "</ul>"
      ++ "</section>"

/-- The `summary_zh` computation of `render_entry`
(build_mdx_from_data.py, lines 142-147). -/
def summaryZh : JValue → String
  | .obj kvs => pyStrip (text_from_value (jget kvs "zh"))
  | .str s => pyStrip s
  | _ => ""

/-- The phonetic/summary line of `render_entry`
(build_mdx_from_data.py, lines 140-150): empty when no part has
content, otherwise a single `div`. -/
def phoneticSummaryBlock (payload : List (String × JValue)) : String :=
  let phonetic_text := render_phonetic (jget payload "phonetic")
  let summary_zh := summaryZh (jget payload "summary")
  let line_parts := [phonetic_text, summary_zh].filter (fun part => part ≠ "")
  if line_parts = [] then ""
  else
    "<div class=\"phonetic-summary\">"
      ++ htmlEscape (String.intercalate " " line_parts)
      ++ "</div>"

/-- One iteration of the definitions loop of `render_entry`
(build_mdx_from_data.py, lines 156-181), returning the concatenation of
the blocks appended for that item. -/
def renderDefItem : JValue → String
  | .obj item =>
      let pos := compact_text (jget item "partOfSpeech")
      let definition_text := compact_text (jget item "definition")
      let line_parts := [pos, definition_text].filter (fun part => part ≠ "")
      let defLine :=
        if line_parts = [] then ""
        else "<div class=\"def-line\">" ++ htmlEscape (String.intercalate " " line_parts) ++ "</div>"
      let exBlock :=
        match jget item "examples" with
        | .arr exs =>
            if exs.isEmpty then ""
            else
              "<ul class=\"examples\">"
                ++ String.join (exs.map (fun ex =>
                    if compact_text ex = "" then ""
                    else "<li>" ++ htmlEscape (compact_text ex) ++ "</li>"))
                ++ "</ul>"
        | _ => ""
      "<li>" ++ defLine ++ exBlock ++ "</li>"
  | item =>
      if compact_text item = "" then ""
      else "<li>" ++ htmlEscape (compact_text item) ++ "</li>"

/-- The definitions section of `render_entry`
(build_mdx_from_data.py, lines 152-183): rendered only when the
`definitions` field is a nonempty JSON list. -/
def definitionsBlock : JValue → String
  | .arr defs =>
      if defs.isEmpty then ""
      else
        "<section class=\"section\">" ++ "<ol>"
          ++ String.join (defs.map renderDefItem)
          ++ "</ol>" ++ "</section>"
  | _ => ""

/-- `render_entry` of build_mdx_from_data.py (lines 135-196). The Python
code appends conditionally to a block list and joins; appending an empty
string is the identity on the joined result, so the body is the plain
concatenation of the (possibly empty) optional blocks. -/
def render_entry (word : String) (payload : List (String × JValue)) : String :=
  "<div class=\"entry\">"
    ++ "<h1 class=\"word\">" ++ htmlEscape word ++ "</h1>"
    ++ phoneticSummaryBlock payload
    ++ definitionsBlock (jget payload "definitions")
    ++ render_string_list_section "相关词" (jget payload "synonyms")
    ++ render_string_list_section "额外说明" (jget payload "extra_explanation")
    ++ "</div>"

/-- One raw line of a shard file together with the outcome of
`json.loads` on its stripped text. The parse outcome is an oracle for
the external JSON parser: `Except.error msg` models a
`json.JSONDecodeError` carrying `exc.msg`. -/
structure Line where
  raw : String
  parsed : Except String JValue

/-- A validated record: the word, the payload fields, and the stripped
raw line text. -/
abbrev Record := String × List (String × JValue) × String

/-- The shared per-line validation of both pipelines
(build_mdx_from_data.py lines 205-225, build_sqlite_from_data.py lines
87-108): strip, skip blank lines, require a JSON object with a non-empty
string `word`. Returns `none` for a skipped blank line. -/
def validate_line (file_path : String) (line_no : Nat) (l : Line) :
    Except String (Option Record) :=
  let line := pyStrip l.raw
  if line = "" then .ok none
  else
    match l.parsed with
    | .error msg =>
        .error ("ERROR: invalid JSON at " ++ file_path ++ ":" ++ toString line_no ++ ": " ++ msg)
    | .ok payload =>
        match payload with
        | .obj fields =>
            match jget fields "word" with
            | .str w =>
                if w = "" then
                  .error ("ERROR: missing/invalid 'word' at " ++ file_path ++ ":" ++ toString line_no)
                else .ok (some (w, fields, line))
            | _ =>
                .error ("ERROR: missing/invalid 'word' at " ++ file_path ++ ":" ++ toString line_no)
        | _ =>
            .error ("ERROR: expected JSON object at " ++ file_path ++ ":" ++ toString line_no)

/-- Membership test `word in entries` on the ordered-dict model. -/
def dictMember (m : List (String × String)) (k : String) : Bool :=
  m.any (fun p => p.1 == k)

/-- `entries[word] = value` on the ordered-dict model: a present key is
updated in place (Python dicts keep the original insertion position), a
new key is appended. -/
def dictSet (m : List (String × String)) (k v : String) : List (String × String) :=
  if dictMember m k then m.map (fun p => if p.1 == k then (k, v) else p)
  else m ++ [(k, v)]

/-- `entries.get(word)` on the ordered-dict model. -/
def dictGet (m : List (String × String)) (k : String) : Option String :=
  (m.find? (fun p => p.1 == k)).map (·.2)

/-- The mutable state of `load_entries` (build_mdx_from_data.py lines
199-201): the word-to-rendering dict and the overwrite counter. -/
structure MdxState where
  entries : List (String × String)
  overwritten : Nat

/-- One validated record processed by the accumulator of `load_entries`
(build_mdx_from_data.py lines 227-229). -/
def mdxStep (st : MdxState) (r : Record) : MdxState :=
  { entries := dictSet st.entries r.1 (render_entry r.1 r.2.1),
    overwritten := if dictMember st.entries r.1 then st.overwritten + 1 else st.overwritten }

/-- The inner loop of `load_entries` over the lines of one file
(build_mdx_from_data.py lines 204-229), with 1-based line numbering over
all lines including blank ones. -/
def loadLines (file_path : String) : List Line → Nat → MdxState → Except String MdxState
  | [], _, st => .ok st
  | l :: rest, n, st =>
      match validate_line file_path n l with
      | .error e => .error e
      | .ok none => loadLines file_path rest (n + 1) st
      | .ok (some r) => loadLines file_path rest (n + 1) (mdxStep st r)

/-- `load_entries` of build_mdx_from_data.py (lines 199-231) over the
sorted shard files, each given as (path, lines). -/
def load_entries : List (String × List Line) → MdxState → Except String MdxState
  | [], st => .ok st
  | (fp, lines) :: fs, st =>
      match loadLines fp lines 1 st with
      | .error e => .error e
      | .ok st2 => load_entries fs st2

/-- `load_entries` started from the empty accumulator. -/
def load_entries0 (files : List (String × List Line)) : Except String MdxState :=
  load_entries files ⟨[], 0⟩

/-- The records of one file in order, or `none` if some line of the file
fails validation. -/
def extractLines : List Line → Option (List Record)
  | [] => some []
  | l :: rest =>
      if pyStrip l.raw = "" then extractLines rest
      else
        match l.parsed with
        | .error _ => none
        | .ok (.obj fields) =>
            match jget fields "word" with
            | .str w =>
                if w = "" then none
                else (extractLines rest).map (fun rs => (w, fields, pyStrip l.raw) :: rs)
            | _ => none
        | .ok _ => none

/-- The records of all files in file-then-line order, or `none` if any
line fails validation. -/
def extractFiles : List (String × List Line) → Option (List Record)
  | [] => some []
  | (_, lines) :: fs =>
      match extractLines lines with
      | none => none
      | some rs =>
          match extractFiles fs with
          | none => none
          | some rest => some (rs ++ rest)

/-- The `words` table of build_sqlite_from_data.py, modelled as the list
of its rows; the unique index on `word` makes the key column unique. -/
abbrev WordsTable := List (String × String)

/-- One row of the bulk upsert statement of `flush_batch`
(build_sqlite_from_data.py lines 66-73): insert, or on conflict update
the definition of the existing row. -/
def upsertRow (t : WordsTable) (p : String × String) : WordsTable :=
  dictSet t p.1 p.2

/-- `flush_batch` (build_sqlite_from_data.py lines 63-74): executemany
applies the upsert row by row in batch order. -/
def flush_batch (t : WordsTable) (batch : List (String × String)) : WordsTable :=
  batch.foldl upsertRow t

/-- The state of `import_rows` (build_sqlite_from_data.py lines 77-117):
the table inside the open transaction, the pending batch, and the count
of rows read. -/
structure SqlState where
  table : WordsTable
  batch : List (String × String)
  read_rows : Nat

/-- The inner loop of `import_rows` over the lines of one file
(build_sqlite_from_data.py lines 87-113). -/
def importLines (batch_size : Nat) (file_path : String) :
    List Line → Nat → SqlState → Except String SqlState
  | [], _, st => .ok st
  | l :: rest, n, st =>
      match validate_line file_path n l with
      | .error e => .error e
      | .ok none => importLines batch_size file_path rest (n + 1) st
      | .ok (some r) =>
          let batch2 := st.batch ++ [(r.1, r.2.2)]
          let st2 : SqlState :=
            if batch_size ≤ batch2.length then
              { table := flush_batch st.table batch2, batch := [], read_rows := st.read_rows + 1 }
            else
              { table := st.table, batch := batch2, read_rows := st.read_rows + 1 }
          importLines batch_size file_path rest (n + 1) st2

/-- The file loop of `import_rows` (build_sqlite_from_data.py lines
85-113). -/
def importFiles (batch_size : Nat) :
    List (String × List Line) → SqlState → Except String SqlState
  | [], st => .ok st
  | (fp, lines) :: fs, st =>
      match importLines batch_size fp lines 1 st with
      | .error e => .error e
      | .ok st2 => importFiles batch_size fs st2

/-- `import_rows` of build_sqlite_from_data.py (lines 77-117): process
all files, flush the remaining batch, and read the final table. The
Python function returns `(read_rows, COUNT(*))`; the model also exposes
the table itself, which the SQL layer holds in the connection. -/
structure SqlFinal where
  table : WordsTable
  read_rows : Nat

def import_rows (batch_size : Nat) (files : List (String × List Line)) :
    Except String SqlFinal :=
  match importFiles batch_size files ⟨[], [], 0⟩ with
  | .error e => .error e
  | .ok st => .ok ⟨flush_batch st.table st.batch, st.read_rows⟩

/-- The sort of `main` (build_mdx_from_data.py line 260):
`sorted(entries.items(), key=lambda kv: (kv[0].lower(), kv[0]))`.
Python compares key tuples lexicographically with string `<`; `sorted`
is ascending and total, so it orders by the negation of the reversed
strict comparison. -/
def entryKeyLt (a b : String × String) : Bool :=
  pyLt (pyLower a.1) (pyLower b.1)
    || (pyLower a.1 == pyLower b.1 && pyLt a.1 b.1)

def sortEntries (entries : List (String × String)) : List (String × String) :=
  entries.mergeSort (fun a b => ! entryKeyLt b a)

/-! ### Order facts about the Python string comparison -/

theorem str_ext {s t : String} (h : s.data = t.data) : s = t := by
  cases s
  cases t
  exact congrArg String.mk (by simpa using h)

theorem pyLtChars_cons_iff (a b : Char) (as bs : List Char) :
    pyLtChars (a :: as) (b :: bs) = true ↔ (a < b ∨ (a = b ∧ pyLtChars as bs = true)) := by
  by_cases h1 : a < b
  · simp [pyLtChars, h1]
  · by_cases h2 : b < a
    · simp [pyLtChars, h1, h2, ne_of_gt h2]
    · have hab : a = b := le_antisymm (not_lt.mp h2) (not_lt.mp h1)
      subst hab
      simp [pyLtChars, lt_irrefl]

theorem pyLtChars_irrefl : ∀ as, pyLtChars as as = false := by
  intro as
  induction as with
  | nil => rfl
  | cons a as ih =>
      rw [Bool.eq_false_iff]
      intro h
      rcases (pyLtChars_cons_iff a a as as).mp h with h1 | h2
      · exact lt_irrefl a h1
      · rw [ih] at h2
        exact Bool.false_ne_true h2.2

theorem pyLtChars_trans :
    ∀ as bs cs, pyLtChars as bs = true → pyLtChars bs cs = true → pyLtChars as cs = true := by
  intro as
  induction as with
  | nil =>
      intro bs cs hab hbc
      cases bs with
      | nil => simp [pyLtChars] at hab
      | cons b bs =>
          cases cs with
          | nil => simp [pyLtChars] at hbc
          | cons c cs => simp [pyLtChars]
  | cons a as ih =>
      intro bs cs hab hbc
      cases bs with
      | nil => simp [pyLtChars] at hab
      | cons b bs =>
          cases cs with
          | nil => simp [pyLtChars] at hbc
          | cons c cs =>
              rcases (pyLtChars_cons_iff a b as bs).mp hab with h1 | ⟨hab1, hab2⟩ <;>
                rcases (pyLtChars_cons_iff b c bs cs).mp hbc with h2 | ⟨hbc1, hbc2⟩
              · exact (pyLtChars_cons_iff a c as cs).mpr (Or.inl (lt_trans h1 h2))
              · exact (pyLtChars_cons_iff a c as cs).mpr (Or.inl (hbc1 ▸ h1))
              · exact (pyLtChars_cons_iff a c as cs).mpr (Or.inl (hab1 ▸ h2))
              · exact (pyLtChars_cons_iff a c as cs).mpr
                  (Or.inr ⟨hab1.trans hbc1, ih bs cs hab2 hbc2⟩)

theorem pyLtChars_connex :
    ∀ as bs, pyLtChars as bs = false → pyLtChars bs as = false → as = bs := by
  intro as
  induction as with
  | nil =>
      intro bs h1 _
      cases bs with
      | nil => rfl
      | cons b bs => simp [pyLtChars] at h1
  | cons a as ih =>
      intro bs h1 h2
      cases bs with
      | nil => simp [pyLtChars] at h2
      | cons b bs =>
          rw [Bool.eq_false_iff] at h1 h2
          by_cases hc : a < b
          · exact absurd ((pyLtChars_cons_iff a b as bs).mpr (Or.inl hc)) h1
          · by_cases hc2 : b < a
            · exact absurd ((pyLtChars_cons_iff b a bs as).mpr (Or.inl hc2)) h2
            · have hab : a = b := le_antisymm (not_lt.mp hc2) (not_lt.mp hc)
              subst hab
              have hrec : as = bs := by
                refine ih bs ?_ ?_
                · rw [Bool.eq_false_iff]
                  intro h
                  exact h1 ((pyLtChars_cons_iff a a as bs).mpr (Or.inr ⟨rfl, h⟩))
                · rw [Bool.eq_false_iff]
                  intro h
                  exact h2 ((pyLtChars_cons_iff a a bs as).mpr (Or.inr ⟨rfl, h⟩))
              rw [hrec]

theorem pyLtChars_asymm :
    ∀ as bs, pyLtChars as bs = true → pyLtChars bs as = false := by
  intro as bs h
  rw [Bool.eq_false_iff]
  intro h2
  have := pyLtChars_trans as bs as h h2
  rw [pyLtChars_irrefl] at this
  exact Bool.false_ne_true this

theorem pyLt_trans {a b c : String} (h1 : pyLt a b = true) (h2 : pyLt b c = true) :
    pyLt a c = true :=
  pyLtChars_trans a.data b.data c.data h1 h2

theorem pyLt_asymm {a b : String} (h : pyLt a b = true) : pyLt b a = false :=
  pyLtChars_asymm a.data b.data h

theorem pyLt_connex {a b : String} (h1 : pyLt a b = false) (h2 : pyLt b a = false) : a = b :=
  str_ext (pyLtChars_connex a.data b.data h1 h2)

theorem pyLt_irrefl (a : String) : pyLt a a = false :=
  pyLtChars_irrefl a.data

/-- The strict comparison of the sort key
`(kv[0].lower(), kv[0])` restricted to the word. -/
def wordKeyLt (a b : String) : Bool :=
  pyLt (pyLower a) (pyLower b) || (pyLower a == pyLower b && pyLt a b)

theorem wordKeyLt_trans {a b c : String}
    (h1 : wordKeyLt a b = true) (h2 : wordKeyLt b c = true) : wordKeyLt a c = true := by
  simp only [wordKeyLt, Bool.or_eq_true, Bool.and_eq_true, beq_iff_eq] at h1 h2 ⊢
  rcases h1 with h1 | ⟨h1e, h1lt⟩ <;> rcases h2 with h2 | ⟨h2e, h2lt⟩
  · exact Or.inl (pyLt_trans h1 h2)
  · exact Or.inl (h2e ▸ h1)
  · exact Or.inl (h1e ▸ h2)
  · exact Or.inr ⟨h1e.trans h2e, pyLt_trans h1lt h2lt⟩

theorem wordKeyLt_asymm {a b : String} (h : wordKeyLt a b = true) : wordKeyLt b a = false := by
  simp only [wordKeyLt, Bool.or_eq_true, Bool.and_eq_true, beq_iff_eq] at h
  simp only [wordKeyLt, Bool.or_eq_false_iff, Bool.and_eq_false_iff]
  rcases h with h | ⟨he, hlt⟩
  · refine ⟨pyLt_asymm h, Or.inl ?_⟩
    rw [beq_eq_false_iff_ne]
    intro hh
    rw [hh] at h
    rw [pyLt_irrefl] at h
    exact Bool.false_ne_true h
  · refine ⟨?_, Or.inr (pyLt_asymm hlt)⟩
    rw [← he]
    exact pyLt_irrefl _

theorem wordKeyLt_connex {a b : String}
    (h1 : wordKeyLt a b = false) (h2 : wordKeyLt b a = false) : a = b := by
  simp only [wordKeyLt, Bool.or_eq_false_iff, Bool.and_eq_false_iff, beq_eq_false_iff_ne,
    ne_eq] at h1 h2
  rcases h1 with ⟨h1lt, h1r⟩
  rcases h2 with ⟨h2lt, h2r⟩
  have hlow : pyLower a = pyLower b := pyLt_connex h1lt h2lt
  rcases h1r with h | h
  · exact absurd hlow h
  · rcases h2r with h2 | h2
    · exact absurd hlow.symm h2
    · exact pyLt_connex h h2

theorem wordKeyLt_trichotomy (a b : String) :
    wordKeyLt a b = true ∨ wordKeyLt b a = true ∨ a = b := by
  by_cases h1 : wordKeyLt a b = true
  · exact Or.inl h1
  · by_cases h2 : wordKeyLt b a = true
    · exact Or.inr (Or.inl h2)
    · exact Or.inr (Or.inr (wordKeyLt_connex (Bool.eq_false_iff.mpr h1) (Bool.eq_false_iff.mpr h2)))

/-! ### Facts about the ordered-dict model -/

theorem dictMember_iff (m : List (String × String)) (k : String) :
    dictMember m k = true ↔ k ∈ m.map Prod.fst := by
  simp only [dictMember, List.any_eq_true, beq_iff_eq, List.mem_map]

theorem find?_key_eq_none_of_not_member {m : List (String × String)} {k : String}
    (h : dictMember m k = false) : List.find? (fun p => p.1 == k) m = none := by
  rw [List.find?_eq_none]
  intro p hp hk
  rw [Bool.eq_false_iff] at h
  exact h (List.any_eq_true.mpr ⟨p, hp, hk⟩)

theorem dictGet_eq_none_of_not_member {m : List (String × String)} {k : String}
    (h : dictMember m k = false) : dictGet m k = none := by
  rw [dictGet, find?_key_eq_none_of_not_member h]
  rfl

theorem find?_key_isSome_of_member {m : List (String × String)} {k : String}
    (h : dictMember m k = true) : (List.find? (fun p => p.1 == k) m).isSome = true := by
  rw [List.find?_isSome]
  rcases List.any_eq_true.mp h with ⟨p, hp, hk⟩
  exact ⟨p, hp, hk⟩

theorem find?_replace (m : List (String × String)) (k v k2 : String) :
    List.find? (fun p => p.1 == k2) (m.map (fun p => if p.1 == k then (k, v) else p)) =
      (List.find? (fun p => p.1 == k2) m).map (fun p => if p.1 == k then (k, v) else p) := by
  rw [List.find?_map]
  have hfun : ((fun p : String × String => p.1 == k2) ∘
      fun p : String × String => if p.1 == k then (k, v) else p)
      = (fun p : String × String => p.1 == k2) := by
    funext p
    by_cases hp : p.1 = k
    · simp [hp]
    · simp [hp]
  rw [hfun]

theorem dictGet_dictSet (m : List (String × String)) (k v k2 : String) :
    dictGet (dictSet m k v) k2 = if k2 = k then some v else dictGet m k2 := by
  rw [dictSet]
  by_cases hm : dictMember m k
  · rw [if_pos hm, dictGet, find?_replace]
    rcases hfind : List.find? (fun p => p.1 == k2) m with _ | r
    · rw [if_neg]
      · simp [dictGet, hfind]
      · intro hk
        subst hk
        have := find?_key_isSome_of_member hm
        rw [hfind] at this
        simp at this
    · have hr : r.1 = k2 := by
        have := List.find?_some hfind
        rwa [beq_iff_eq] at this
      by_cases hk : k2 = k
      · subst hk
        simp [hr, dictGet, hfind]
      · have : ¬ (r.1 = k) := fun hh => hk (hr ▸ hh)
        simp [hr, this, hk, dictGet, hfind]
  · rw [if_neg hm, dictGet, List.find?_append]
    by_cases hk : k2 = k
    · subst hk
      rw [find?_key_eq_none_of_not_member (Bool.eq_false_iff.mpr hm), Option.none_or, if_pos rfl]
      simp [List.find?]
    · have hbeq : (k == k2) = false := by
        rw [beq_eq_false_iff_ne]
        exact fun hh => hk hh.symm
      have hsingle : List.find? (fun p => p.1 == k2) [(k, v)] = none := by
        simp [List.find?, hbeq]
      rw [hsingle, Option.or_none, if_neg hk, dictGet]

theorem dictSet_keys (m : List (String × String)) (k v : String) :
    (dictSet m k v).map Prod.fst =
      if dictMember m k then m.map Prod.fst else m.map Prod.fst ++ [k] := by
  rw [dictSet]
  by_cases hm : dictMember m k
  · rw [if_pos hm, if_pos hm, List.map_map]
    refine List.map_congr_left ?_
    intro p _
    by_cases hp : p.1 = k <;> simp [hp]
  · rw [if_neg hm, if_neg hm]
    simp

theorem dictSet_length (m : List (String × String)) (k v : String) :
    (dictSet m k v).length = if dictMember m k then m.length else m.length + 1 := by
  have h := congrArg List.length (dictSet_keys m k v)
  by_cases hm : dictMember m k
  · rw [if_pos hm] at h
    rw [if_pos hm]
    simpa using h
  · rw [if_neg hm] at h
    rw [if_neg hm]
    simpa using h

theorem dictSet_nodup {m : List (String × String)} (k v : String)
    (h : (m.map Prod.fst).Nodup) : ((dictSet m k v).map Prod.fst).Nodup := by
  rw [dictSet_keys]
  by_cases hm : dictMember m k
  · rwa [if_pos hm]
  · rw [if_neg hm]
    have hk : k ∉ m.map Prod.fst := fun hmem => hm ((dictMember_iff m k).mpr hmem)
    simp [List.nodup_append, h, hk]

/-! ### Folding upserts over a pair list -/

/-- Fold a list of (key, value) pairs into the dict by repeated upsert. -/
def setAll (m : List (String × String)) (ps : List (String × String)) :
    List (String × String) :=
  ps.foldl (fun acc p => dictSet acc p.1 p.2) m

/-- The value of the last pair with the given key, if any. -/
def lastValue (ps : List (String × String)) (w : String) : Option String :=
  ((ps.filter (fun p => p.1 == w)).getLast?).map (·.2)

theorem getLast?_cons_or {α : Type} (a : α) (l : List α) :
    (a :: l).getLast? = (l.getLast?).or (some a) := by
  cases l with
  | nil => rfl
  | cons b l =>
      rw [List.getLast?_cons_cons]
      rcases h : (b :: l).getLast? with _ | x
      · rw [List.getLast?_eq_none_iff] at h
        exact absurd h (List.cons_ne_nil b l)
      · rfl

theorem lastValue_cons (p : String × String) (ps : List (String × String)) (w : String) :
    lastValue (p :: ps) w = (lastValue ps w).or (if p.1 = w then some p.2 else none) := by
  by_cases hp : p.1 = w
  · rw [lastValue, List.filter_cons_of_pos (by simpa using hp), getLast?_cons_or, if_pos hp]
    rcases h : ((ps.filter (fun q => q.1 == w)).getLast?) with _ | x
    · simp [lastValue, h]
    · simp [lastValue, h]
  · rw [lastValue, List.filter_cons_of_neg (by simpa using hp), if_neg hp, Option.or_none]
    rfl

theorem dictGet_setAll :
    ∀ (ps : List (String × String)) (m : List (String × String)) (w : String),
      dictGet (setAll m ps) w = (lastValue ps w).or (dictGet m w) := by
  intro ps
  induction ps with
  | nil => intro m w; simp [setAll, lastValue]
  | cons p ps ih =>
      intro m w
      have hstep : setAll m (p :: ps) = setAll (dictSet m p.1 p.2) ps := rfl
      rw [hstep, ih, lastValue_cons, Option.or_assoc]
      congr 1
      rw [dictGet_dictSet]
      by_cases hw : w = p.1
      · rw [if_pos hw, if_pos hw.symm]
        rfl
      · rw [if_neg hw, if_neg (fun h => hw h.symm), Option.none_or]

theorem mem_dictSet_keys (m : List (String × String)) (k v w : String) :
    w ∈ (dictSet m k v).map Prod.fst ↔ w ∈ m.map Prod.fst ∨ w = k := by
  rw [dictSet_keys]
  by_cases hm : dictMember m k
  · rw [if_pos hm]
    constructor
    · exact Or.inl
    · rintro (h | h)
      · exact h
      · exact h ▸ (dictMember_iff m k).mp hm
  · rw [if_neg hm]
    simp

theorem mem_setAll_keys :
    ∀ (ps : List (String × String)) (m : List (String × String)) (w : String),
      w ∈ (setAll m ps).map Prod.fst ↔ w ∈ m.map Prod.fst ∨ w ∈ ps.map Prod.fst := by
  intro ps
  induction ps with
  | nil => intro m w; simp [setAll]
  | cons p ps ih =>
      intro m w
      have hstep : setAll m (p :: ps) = setAll (dictSet m p.1 p.2) ps := rfl
      rw [hstep, ih, mem_dictSet_keys]
      simp [or_assoc, or_comm, or_left_comm]

theorem setAll_nodup :
    ∀ (ps : List (String × String)) (m : List (String × String)),
      (m.map Prod.fst).Nodup → ((setAll m ps).map Prod.fst).Nodup := by
  intro ps
  induction ps with
  | nil => intro m h; exact h
  | cons p ps ih =>
      intro m h
      exact ih (dictSet m p.1 p.2) (dictSet_nodup p.1 p.2 h)

/-- With distinct keys and the same key set, a list has the length of the
deduplicated key list of the other. -/
theorem length_eq_dedup_length {keys words : List String}
    (hnd : keys.Nodup) (hmem : ∀ w, w ∈ keys ↔ w ∈ words) :
    keys.length = words.dedup.length := by
  have h1 : keys.toFinset = words.toFinset := by
    ext w
    simp [List.mem_toFinset, hmem]
  calc keys.length = keys.toFinset.card := (List.toFinset_card_of_nodup hnd).symm
    _ = words.toFinset.card := by rw [h1]
    _ = words.dedup.length := List.card_toFinset words

/-! ### The accumulator as a fold over validated records -/

/-- The (key, value) pair a record contributes to the document-pipeline
accumulator. -/
def mdxRecPair (r : Record) : String × String :=
  (r.1, render_entry r.1 r.2.1)

/-- The (word, definition) pair a record contributes to the relational
pipeline. -/
def sqlRecPair (r : Record) : String × String :=
  (r.1, r.2.2)

theorem mdxFold_entries :
    ∀ (rs : List Record) (st : MdxState),
      (rs.foldl mdxStep st).entries = setAll st.entries (rs.map mdxRecPair) := by
  intro rs
  induction rs with
  | nil => intro st; rfl
  | cons r rs ih =>
      intro st
      rw [List.foldl_cons, ih]
      rfl

theorem mdxFold_counter :
    ∀ (rs : List Record) (st : MdxState),
      (rs.foldl mdxStep st).overwritten + (rs.foldl mdxStep st).entries.length =
        st.overwritten + st.entries.length + rs.length := by
  intro rs
  induction rs with
  | nil => intro st; simp
  | cons r rs ih =>
      intro st
      rw [List.foldl_cons, ih]
      have hlen : (mdxStep st r).overwritten + (mdxStep st r).entries.length =
          st.overwritten + st.entries.length + 1 := by
        rw [mdxStep]
        rcases hm : dictMember st.entries r.1 with _ | _ <;>
          simp [dictSet_length, hm] <;> omega
      rw [hlen]
      simp [Nat.add_assoc, Nat.add_comm, Nat.add_left_comm]

/-! ### Single-line step lemmas shared by both pipelines -/

theorem strAppendAssoc (a b c : String) : a ++ b ++ c = a ++ (b ++ c) := by
  apply str_ext
  simp [String.data_append]

/-- A non-blank line violates validation when its JSON fails to parse,
parses to a non-object, or the object lacks a non-empty string `word`. -/
def lineViolation (l : Line) : Bool :=
  match l.parsed with
  | .error _ => true
  | .ok (.obj fields) =>
      match jget fields "word" with
      | .str w => w == ""
      | _ => true
  | .ok _ => true

theorem line_cases (l : Line) :
    lineViolation l = true ∨
      ∃ fields w, l.parsed = .ok (.obj fields) ∧ jget fields "word" = .str w ∧ ¬ (w = "") := by
  rcases hparse : l.parsed with msg | payload
  · exact Or.inl (by simp [lineViolation, hparse])
  · cases payload with
    | obj fields =>
        rcases hword : jget fields "word" with _ | _ | _ | _ | w | _ | _
        case str =>
          by_cases hw : w = ""
          · exact Or.inl (by simp [lineViolation, hparse, hword, hw])
          · exact Or.inr ⟨fields, w, rfl, hword, hw⟩
        all_goals exact Or.inl (by simp [lineViolation, hparse, hword])
    | null => exact Or.inl (by simp [lineViolation, hparse])
    | bool b => exact Or.inl (by simp [lineViolation, hparse])
    | int n => exact Or.inl (by simp [lineViolation, hparse])
    | float r => exact Or.inl (by simp [lineViolation, hparse])
    | str s => exact Or.inl (by simp [lineViolation, hparse])
    | arr xs => exact Or.inl (by simp [lineViolation, hparse])

theorem validate_line_blank {l : Line} (fp : String) (n : Nat) (h : pyStrip l.raw = "") :
    validate_line fp n l = .ok none := by
  simp [validate_line, h]

theorem validate_line_valid {l : Line} (fp : String) (n : Nat) {fields : List (String × JValue)}
    {w : String}
    (hblank : pyStrip l.raw ≠ "") (hparse : l.parsed = .ok (.obj fields))
    (hword : jget fields "word" = .str w) (hw : ¬ (w = "")) :
    validate_line fp n l = .ok (some (w, fields, pyStrip l.raw)) := by
  simp [validate_line, hblank, hparse, hword, hw]

theorem validate_line_violation {l : Line} (fp : String) (n : Nat)
    (hblank : pyStrip l.raw ≠ "") (hviol : lineViolation l = true) :
    ∃ pre post,
      validate_line fp n l = .error (pre ++ (fp ++ ":" ++ toString n) ++ post) := by
  rcases hparse : l.parsed with msg | payload
  · refine ⟨"ERROR: invalid JSON at ", ": " ++ msg, ?_⟩
    simp [validate_line, hblank, hparse, strAppendAssoc]
  · cases payload with
    | obj fields =>
        rcases hword : jget fields "word" with _ | _ | _ | _ | w | _ | _
        case str =>
          have hw : w = "" := by
            simpa [lineViolation, hparse, hword] using hviol
          refine ⟨"ERROR: missing/invalid 'word' at ", "", ?_⟩
          simp [validate_line, hblank, hparse, hword, hw, strAppendAssoc]
        all_goals
          refine ⟨"ERROR: missing/invalid 'word' at ", "", ?_⟩
          simp [validate_line, hblank, hparse, hword, strAppendAssoc]
    | null =>
        exact ⟨"ERROR: expected JSON object at ", "",
          by simp [validate_line, hblank, hparse, strAppendAssoc]⟩
    | bool b =>
        exact ⟨"ERROR: expected JSON object at ", "",
          by simp [validate_line, hblank, hparse, strAppendAssoc]⟩
    | int n2 =>
        exact ⟨"ERROR: expected JSON object at ", "",
          by simp [validate_line, hblank, hparse, strAppendAssoc]⟩
    | float r =>
        exact ⟨"ERROR: expected JSON object at ", "",
          by simp [validate_line, hblank, hparse, strAppendAssoc]⟩
    | str s =>
        exact ⟨"ERROR: expected JSON object at ", "",
          by simp [validate_line, hblank, hparse, strAppendAssoc]⟩
    | arr xs =>
        exact ⟨"ERROR: expected JSON object at ", "",
          by simp [validate_line, hblank, hparse, strAppendAssoc]⟩

theorem extractLines_blank {l : Line} {rest : List Line} (h : pyStrip l.raw = "") :
    extractLines (l :: rest) = extractLines rest := by
  simp [extractLines, h]

theorem extractLines_valid {l : Line} {rest : List Line} {fields : List (String × JValue)}
    {w : String}
    (hblank : pyStrip l.raw ≠ "") (hparse : l.parsed = .ok (.obj fields))
    (hword : jget fields "word" = .str w) (hw : ¬ (w = "")) :
    extractLines (l :: rest) =
      (extractLines rest).map (fun rs => (w, fields, pyStrip l.raw) :: rs) := by
  simp [extractLines, hblank, hparse, hword, hw]

theorem extractLines_violation {l : Line} {rest : List Line}
    (hblank : pyStrip l.raw ≠ "") (hviol : lineViolation l = true) :
    extractLines (l :: rest) = none := by
  rcases hparse : l.parsed with msg | payload
  · simp [extractLines, hblank, hparse]
  · cases payload with
    | obj fields =>
        rcases hword : jget fields "word" with _ | _ | _ | _ | w | _ | _
        case str =>
          have hw : w = "" := by
            simpa [lineViolation, hparse, hword] using hviol
          simp [extractLines, hblank, hparse, hword, hw]
        all_goals simp [extractLines, hblank, hparse, hword]
    | null => simp [extractLines, hblank, hparse]
    | bool b => simp [extractLines, hblank, hparse]
    | int n2 => simp [extractLines, hblank, hparse]
    | float r => simp [extractLines, hblank, hparse]
    | str s => simp [extractLines, hblank, hparse]
    | arr xs => simp [extractLines, hblank, hparse]

theorem loadLines_blank {l : Line} (fp : String) {rest : List Line} (n : Nat) (st : MdxState)
    (h : pyStrip l.raw = "") :
    loadLines fp (l :: rest) n st = loadLines fp rest (n + 1) st := by
  rw [loadLines, validate_line_blank fp n h]

theorem loadLines_valid {l : Line} (fp : String) {rest : List Line} (n : Nat) (st : MdxState)
    {fields : List (String × JValue)} {w : String}
    (hblank : pyStrip l.raw ≠ "") (hparse : l.parsed = .ok (.obj fields))
    (hword : jget fields "word" = .str w) (hw : ¬ (w = "")) :
    loadLines fp (l :: rest) n st =
      loadLines fp rest (n + 1) (mdxStep st (w, fields, pyStrip l.raw)) := by
  rw [loadLines, validate_line_valid fp n hblank hparse hword hw]

theorem loadLines_violation {l : Line} (fp : String) {rest : List Line} (n : Nat) (st : MdxState)
    (hblank : pyStrip l.raw ≠ "") (hviol : lineViolation l = true) :
    ∃ pre post,
      loadLines fp (l :: rest) n st = .error (pre ++ (fp ++ ":" ++ toString n) ++ post) := by
  rcases validate_line_violation fp n hblank hviol with ⟨pre, post, hv⟩
  exact ⟨pre, post, by rw [loadLines, hv]⟩

theorem importLines_blank {l : Line} (bs : Nat) (fp : String) {rest : List Line} (n : Nat)
    (st : SqlState) (h : pyStrip l.raw = "") :
    importLines bs fp (l :: rest) n st = importLines bs fp rest (n + 1) st := by
  rw [importLines, validate_line_blank fp n h]

theorem importLines_valid {l : Line} (bs : Nat) (fp : String) {rest : List Line} (n : Nat)
    (st : SqlState) {fields : List (String × JValue)} {w : String}
    (hblank : pyStrip l.raw ≠ "") (hparse : l.parsed = .ok (.obj fields))
    (hword : jget fields "word" = .str w) (hw : ¬ (w = "")) :
    importLines bs fp (l :: rest) n st =
      importLines bs fp rest (n + 1)
        (if bs ≤ (st.batch ++ [(w, pyStrip l.raw)]).length then
          { table := flush_batch st.table (st.batch ++ [(w, pyStrip l.raw)]), batch := [],
            read_rows := st.read_rows + 1 }
        else
          { table := st.table, batch := st.batch ++ [(w, pyStrip l.raw)],
            read_rows := st.read_rows + 1 }) := by
  rw [importLines, validate_line_valid fp n hblank hparse hword hw]

theorem importLines_violation {l : Line} (bs : Nat) (fp : String) {rest : List Line} (n : Nat)
    (st : SqlState) (hblank : pyStrip l.raw ≠ "") (hviol : lineViolation l = true) :
    ∃ pre post,
      importLines bs fp (l :: rest) n st = .error (pre ++ (fp ++ ":" ++ toString n) ++ post) := by
  rcases validate_line_violation fp n hblank hviol with ⟨pre, post, hv⟩
  exact ⟨pre, post, by rw [importLines, hv]⟩

/-! ### The document pipeline as a fold -/

theorem loadLines_ok (fp : String) :
    ∀ (lines : List Line) (rs : List Record) (n : Nat) (st : MdxState),
      extractLines lines = some rs →
      loadLines fp lines n st = .ok (rs.foldl mdxStep st) := by
  intro lines
  induction lines with
  | nil =>
      intro rs n st h
      rw [extractLines] at h
      cases h
      rfl
  | cons l rest ih =>
      intro rs n st h
      by_cases hblank : pyStrip l.raw = ""
      · rw [extractLines_blank hblank] at h
        rw [loadLines_blank fp n st hblank]
        exact ih rs (n + 1) st h
      · rcases line_cases l with hviol | ⟨fields, w, hparse, hword, hw⟩
        · rw [extractLines_violation hblank hviol] at h
          cases h
        · rw [extractLines_valid hblank hparse hword hw] at h
          rcases hrest : extractLines rest with _ | rs2
          · rw [hrest] at h
            cases h
          · rw [hrest] at h
            injection h with h
            cases h
            rw [loadLines_valid fp n st hblank hparse hword hw]
            rw [ih rs2 (n + 1) (mdxStep st (w, fields, pyStrip l.raw)) hrest]
            rfl

theorem loadLines_error (fp : String) :
    ∀ (lines : List Line) (n : Nat) (st : MdxState),
      extractLines lines = none →
      ∃ e, loadLines fp lines n st = .error e := by
  intro lines
  induction lines with
  | nil =>
      intro n st h
      rw [extractLines] at h
      cases h
  | cons l rest ih =>
      intro n st h
      by_cases hblank : pyStrip l.raw = ""
      · rw [extractLines_blank hblank] at h
        rw [loadLines_blank fp n st hblank]
        exact ih (n + 1) st h
      · rcases line_cases l with hviol | ⟨fields, w, hparse, hword, hw⟩
        · rcases loadLines_violation fp n st hblank hviol with ⟨pre, post, he⟩
          exact ⟨_, he⟩
        · rw [extractLines_valid hblank hparse hword hw] at h
          rcases hrest : extractLines rest with _ | rs2
          · rw [loadLines_valid fp n st hblank hparse hword hw]
            exact ih (n + 1) _ hrest
          · rw [hrest] at h
            cases h

theorem load_entries_ok :
    ∀ (files : List (String × List Line)) (rs : List Record) (st : MdxState),
      extractFiles files = some rs →
      load_entries files st = .ok (rs.foldl mdxStep st) := by
  intro files
  induction files with
  | nil =>
      intro rs st h
      rw [extractFiles] at h
      cases h
      rfl
  | cons f fs ih =>
      intro rs st h
      rcases f with ⟨fp, lines⟩
      rw [extractFiles] at h
      rcases h1 : extractLines lines with _ | rs1
      · rw [h1] at h
        cases h
      · rw [h1] at h
        rcases h2 : extractFiles fs with _ | rs2
        · rw [h2] at h
          cases h
        · rw [h2] at h
          cases h
          rw [load_entries, loadLines_ok fp lines rs1 1 st h1]
          show load_entries fs (List.foldl mdxStep st rs1) = _
          rw [ih rs2 (rs1.foldl mdxStep st) h2, List.foldl_append]

theorem load_entries_error :
    ∀ (files : List (String × List Line)) (st : MdxState),
      extractFiles files = none →
      ∃ e, load_entries files st = .error e := by
  intro files
  induction files with
  | nil =>
      intro st h
      rw [extractFiles] at h
      cases h
  | cons f fs ih =>
      intro st h
      rcases f with ⟨fp, lines⟩
      rw [extractFiles] at h
      rcases h1 : extractLines lines with _ | rs1
      · rcases loadLines_error fp lines 1 st h1 with ⟨e, he⟩
        exact ⟨e, by rw [load_entries, he]⟩
      · rw [h1] at h
        rcases h2 : extractFiles fs with _ | rs2
        · rw [load_entries, loadLines_ok fp lines rs1 1 st h1]
          exact ih (rs1.foldl mdxStep st) h2
        · rw [h2] at h
          cases h

/-! ### The relational pipeline as a fold -/

theorem flush_batch_concat (t : WordsTable) (batch : List (String × String))
    (p : String × String) :
    flush_batch t (batch ++ [p]) = dictSet (flush_batch t batch) p.1 p.2 := by
  rw [flush_batch, List.foldl_append]
  rfl

theorem importLines_ok (bs : Nat) (fp : String) :
    ∀ (lines : List Line) (rs : List Record) (n : Nat) (st : SqlState),
      extractLines lines = some rs →
      ∃ st2, importLines bs fp lines n st = .ok st2 ∧
        flush_batch st2.table st2.batch =
          setAll (flush_batch st.table st.batch) (rs.map sqlRecPair) ∧
        st2.read_rows = st.read_rows + rs.length := by
  intro lines
  induction lines with
  | nil =>
      intro rs n st h
      rw [extractLines] at h
      cases h
      exact ⟨st, rfl, rfl, rfl⟩
  | cons l rest ih =>
      intro rs n st h
      by_cases hblank : pyStrip l.raw = ""
      · rw [extractLines_blank hblank] at h
        rw [importLines_blank bs fp n st hblank]
        exact ih rs (n + 1) st h
      · rcases line_cases l with hviol | ⟨fields, w, hparse, hword, hw⟩
        · rw [extractLines_violation hblank hviol] at h
          cases h
        · rw [extractLines_valid hblank hparse hword hw] at h
          rcases hrest : extractLines rest with _ | rs2
          · rw [hrest] at h
            cases h
          · rw [hrest] at h
            injection h with h
            cases h
            rw [importLines_valid bs fp n st hblank hparse hword hw]
            set p : String × String := (w, pyStrip l.raw) with hp
            by_cases hb : bs ≤ (st.batch ++ [p]).length
            · rw [if_pos hb]
              rcases ih rs2 (n + 1)
                  ⟨flush_batch st.table (st.batch ++ [p]), [], st.read_rows + 1⟩ hrest with
                ⟨st2, h1, h2, h3⟩
              refine ⟨st2, h1, ?_, ?_⟩
              · rw [h2]
                show setAll (flush_batch (flush_batch st.table (st.batch ++ [p])) []) _ = _
                rw [show flush_batch (flush_batch st.table (st.batch ++ [p])) [] =
                      flush_batch st.table (st.batch ++ [p]) from rfl]
                rw [flush_batch_concat]
                rfl
              · rw [h3]
                simp [List.length_cons]
                omega
            · rw [if_neg hb]
              rcases ih rs2 (n + 1)
                  ⟨st.table, st.batch ++ [p], st.read_rows + 1⟩ hrest with ⟨st2, h1, h2, h3⟩
              refine ⟨st2, h1, ?_, ?_⟩
              · rw [h2]
                show setAll (flush_batch st.table (st.batch ++ [p])) _ = _
                rw [flush_batch_concat]
                rfl
              · rw [h3]
                simp [List.length_cons]
                omega

theorem setAll_append (m : List (String × String)) (ps qs : List (String × String)) :
    setAll m (ps ++ qs) = setAll (setAll m ps) qs := by
  rw [setAll, setAll, setAll, List.foldl_append]

theorem importLines_error (bs : Nat) (fp : String) :
    ∀ (lines : List Line) (n : Nat) (st : SqlState),
      extractLines lines = none →
      ∃ e, importLines bs fp lines n st = .error e := by
  intro lines
  induction lines with
  | nil =>
      intro n st h
      rw [extractLines] at h
      cases h
  | cons l rest ih =>
      intro n st h
      by_cases hblank : pyStrip l.raw = ""
      · rw [extractLines_blank hblank] at h
        rw [importLines_blank bs fp n st hblank]
        exact ih (n + 1) st h
      · rcases line_cases l with hviol | ⟨fields, w, hparse, hword, hw⟩
        · rcases importLines_violation bs fp n st hblank hviol with ⟨pre, post, he⟩
          exact ⟨_, he⟩
        · rw [extractLines_valid hblank hparse hword hw] at h
          rcases hrest : extractLines rest with _ | rs2
          · rw [importLines_valid bs fp n st hblank hparse hword hw]
            by_cases hb : bs ≤ (st.batch ++ [(w, pyStrip l.raw)]).length
            · rw [if_pos hb]
              exact ih (n + 1) _ hrest
            · rw [if_neg hb]
              exact ih (n + 1) _ hrest
          · rw [hrest] at h
            cases h

theorem importFiles_ok :
    ∀ (bs : Nat) (files : List (String × List Line)) (rs : List Record) (st : SqlState),
      extractFiles files = some rs →
      ∃ st2, importFiles bs files st = .ok st2 ∧
        flush_batch st2.table st2.batch =
          setAll (flush_batch st.table st.batch) (rs.map sqlRecPair) ∧
        st2.read_rows = st.read_rows + rs.length := by
  intro bs files
  induction files with
  | nil =>
      intro rs st h
      rw [extractFiles] at h
      cases h
      exact ⟨st, rfl, rfl, rfl⟩
  | cons f fs ih =>
      intro rs st h
      rcases f with ⟨fp, lines⟩
      rw [extractFiles] at h
      rcases h1 : extractLines lines with _ | rs1
      · rw [h1] at h
        cases h
      · rw [h1] at h
        rcases h2 : extractFiles fs with _ | rs2
        · rw [h2] at h
          cases h
        · rw [h2] at h
          cases h
          rcases importLines_ok bs fp lines rs1 1 st h1 with ⟨stm, hm1, hm2, hm3⟩
          rcases ih rs2 stm h2 with ⟨st2, hh1, hh2, hh3⟩
          refine ⟨st2, ?_, ?_, ?_⟩
          · rw [importFiles, hm1]
            exact hh1
          · rw [hh2, hm2, List.map_append, setAll_append]
          · rw [hh3, hm3, List.length_append]
            omega

theorem importFiles_error :
    ∀ (bs : Nat) (files : List (String × List Line)) (st : SqlState),
      extractFiles files = none →
      ∃ e, importFiles bs files st = .error e := by
  intro bs files
  induction files with
  | nil =>
      intro st h
      rw [extractFiles] at h
      cases h
  | cons f fs ih =>
      intro st h
      rcases f with ⟨fp, lines⟩
      rw [extractFiles] at h
      rcases h1 : extractLines lines with _ | rs1
      · rcases importLines_error bs fp lines 1 st h1 with ⟨e, he⟩
        exact ⟨e, by rw [importFiles, he]⟩
      · rw [h1] at h
        rcases h2 : extractFiles fs with _ | rs2
        · rcases importLines_ok bs fp lines rs1 1 st h1 with ⟨stm, hm1, _, _⟩
          rcases ih stm h2 with ⟨e, he⟩
          exact ⟨e, by rw [importFiles, hm1]; exact he⟩
        · rw [h2] at h
          cases h

theorem import_rows_ok (bs : Nat) (files : List (String × List Line)) (rs : List Record)
    (h : extractFiles files = some rs) :
    import_rows bs files = .ok ⟨setAll [] (rs.map sqlRecPair), rs.length⟩ := by
  rcases importFiles_ok bs files rs ⟨[], [], 0⟩ h with ⟨st2, h1, h2, h3⟩
  rw [import_rows, h1]
  show Except.ok (SqlFinal.mk (flush_batch st2.table st2.batch) st2.read_rows) =
    Except.ok (SqlFinal.mk (setAll [] (rs.map sqlRecPair)) rs.length)
  have : flush_batch st2.table st2.batch = setAll [] (rs.map sqlRecPair) := by
    rw [h2]
    rfl
  rw [this, h3]
  simp

theorem import_rows_error (bs : Nat) (files : List (String × List Line))
    (h : extractFiles files = none) :
    ∃ e, import_rows bs files = .error e := by
  rcases importFiles_error bs files ⟨[], [], 0⟩ h with ⟨e, he⟩
  exact ⟨e, by rw [import_rows, he]⟩

theorem extractLines_words_nonempty :
    ∀ (lines : List Line) (rs : List Record), extractLines lines = some rs →
      ∀ r ∈ rs, r.1 ≠ "" := by
  intro lines
  induction lines with
  | nil =>
      intro rs h
      rw [extractLines] at h
      cases h
      intro r hr
      cases hr
  | cons l rest ih =>
      intro rs h
      by_cases hblank : pyStrip l.raw = ""
      · rw [extractLines_blank hblank] at h
        exact ih rs h
      · rcases line_cases l with hviol | ⟨fields, w, hparse, hword, hw⟩
        · rw [extractLines_violation hblank hviol] at h
          cases h
        · rw [extractLines_valid hblank hparse hword hw] at h
          rcases hrest : extractLines rest with _ | rs2
          · rw [hrest] at h
            cases h
          · rw [hrest] at h
            injection h with h
            cases h
            intro r hr
            rcases List.mem_cons.mp hr with hr1 | hr2
            · rw [hr1]
              exact hw
            · exact ih rs2 hrest r hr2

theorem extractFiles_words_nonempty :
    ∀ (files : List (String × List Line)) (rs : List Record),
      extractFiles files = some rs → ∀ r ∈ rs, r.1 ≠ "" := by
  intro files
  induction files with
  | nil =>
      intro rs h
      rw [extractFiles] at h
      cases h
      intro r hr
      cases hr
  | cons f fs ih =>
      intro rs h
      rcases f with ⟨fp, lines⟩
      rw [extractFiles] at h
      rcases h1 : extractLines lines with _ | rs1
      · rw [h1] at h
        cases h
      · rw [h1] at h
        rcases h2 : extractFiles fs with _ | rs2
        · rw [h2] at h
          cases h
        · rw [h2] at h
          cases h
          intro r hr
          rcases List.mem_append.mp hr with hr1 | hr2
          · exact extractLines_words_nonempty lines rs1 h1 r hr1
          · exact ih rs2 h2 r hr2

/-! ### The two main() functions -/

/-- `main` of build_mdx_from_data.py (lines 234-279), modelled from the
point where the shard file list is known. The MDX artifact is modelled
as the sorted (word, html) item list handed to MDictWriter; `prior_out`
is whatever currently sits at the output path. The output file is
created and written only after `load_entries` succeeds and the
accumulator is non-empty, so every abort leaves `prior_out` in place. -/
def mdx_main (files : List (String × List Line))
    (prior_out : Option (List (String × String))) :
    Except String (List (String × String)) × Option (List (String × String)) :=
  if files.isEmpty then (.error "ERROR: no .ndjson files found", prior_out)
  else
    match load_entries0 files with
    | .error e => (.error e, prior_out)
    | .ok st =>
        if st.entries.isEmpty then (.error "ERROR: no dictionary entries loaded", prior_out)
        else (.ok (sortEntries st.entries), some (sortEntries st.entries))

/-- The committed content of the SQLite file at the output path: the
rows of the `words` table. -/
structure SqliteDb where
  rows : WordsTable

/-- `main` of build_sqlite_from_data.py (lines 120-155), modelled from
the point where the shard file list is known. A pre-existing file at
the output path is unlinked before the connection opens, so the fresh
file starts empty; `create_schema` runs DDL that commits immediately,
row inserts run inside the implicit transaction which the connection
context manager commits on success and rolls back on the `SystemExit`
raised for a malformed line. Hence an abort during `import_rows` leaves
a database whose `words` table holds no committed rows. -/
def sqlite_main (files : List (String × List Line)) (prior : Option SqliteDb)
    (batch_size : Nat) : Except String (Nat × Nat) × Option SqliteDb :=
  if batch_size < 1 then (.error "ERROR: --batch-size must be >= 1", prior)
  else if files.isEmpty then (.error "ERROR: no .ndjson files found", prior)
  else
    match import_rows batch_size files with
    | .error e => (.error e, some ⟨[]⟩)
    | .ok fin => (.ok (fin.read_rows, fin.table.length), some ⟨fin.table⟩)

/-! ### Sortedness of the document-pipeline output -/

theorem entryKeyLt_eq_wordKeyLt (a b : String × String) :
    entryKeyLt a b = wordKeyLt a.1 b.1 := rfl

theorem wordKeyLt_irrefl (a : String) : wordKeyLt a a = false := by
  by_contra h
  rw [Bool.not_eq_false] at h
  have h2 := wordKeyLt_asymm h
  rw [h2] at h
  exact Bool.false_ne_true h

theorem sortLE_trans :
    ∀ a b c : String × String,
      (!entryKeyLt b a) = true → (!entryKeyLt c b) = true → (!entryKeyLt c a) = true := by
  intro a b c h1 h2
  rw [Bool.not_eq_true', entryKeyLt_eq_wordKeyLt] at h1 h2 ⊢
  by_contra hc
  rw [Bool.not_eq_false] at hc
  rcases wordKeyLt_trichotomy a.1 b.1 with h | h | h
  · have := wordKeyLt_trans hc h
    rw [h2] at this
    exact Bool.false_ne_true this
  · rw [h1] at h
    exact Bool.false_ne_true h
  · rw [h] at hc
    rw [h2] at hc
    exact Bool.false_ne_true hc

theorem sortLE_total :
    ∀ a b : String × String, ((!entryKeyLt b a) || (!entryKeyLt a b)) = true := by
  intro a b
  rcases h : entryKeyLt b a with _ | _
  · simp
  · rw [entryKeyLt_eq_wordKeyLt] at h
    have := wordKeyLt_asymm h
    simp [entryKeyLt_eq_wordKeyLt, this]

theorem sortEntries_perm (entries : List (String × String)) :
    (sortEntries entries).Perm entries :=
  List.mergeSort_perm entries _

theorem sortEntries_pairwise (entries : List (String × String)) :
    (sortEntries entries).Pairwise (fun a b => (!entryKeyLt b a) = true) :=
  List.sorted_mergeSort sortLE_trans sortLE_total entries

/-- Position characterization for a list of distinct keys sorted by the
word key order. -/
theorem keys_index_iff {keys : List String}
    (hnd : keys.Nodup) (hpair : keys.Pairwise (fun a b => wordKeyLt b a = false)) :
    ∀ a b, a ∈ keys → b ∈ keys →
      (keys.indexOf a < keys.indexOf b ↔ wordKeyLt a b = true) := by
  intro a b ha hb
  constructor
  · intro hij
    have hne : a ≠ b := by
      intro he
      rw [he] at hij
      exact Nat.lt_irrefl _ hij
    have hia : keys.indexOf a < keys.length := List.indexOf_lt_length.mpr ha
    have hib : keys.indexOf b < keys.length := List.indexOf_lt_length.mpr hb
    have hR := List.pairwise_iff_getElem.mp hpair (keys.indexOf a) (keys.indexOf b) hia hib hij
    rw [List.getElem_indexOf hia, List.getElem_indexOf hib] at hR
    rcases wordKeyLt_trichotomy a b with h | h | h
    · exact h
    · rw [hR] at h
      exact absurd h Bool.false_ne_true
    · exact absurd h hne
  · intro hlt
    have hne : a ≠ b := by
      intro he
      rw [he] at hlt
      rw [wordKeyLt_irrefl] at hlt
      exact Bool.false_ne_true hlt
    have hia : keys.indexOf a < keys.length := List.indexOf_lt_length.mpr ha
    have hib : keys.indexOf b < keys.length := List.indexOf_lt_length.mpr hb
    have hne2 : keys.indexOf a ≠ keys.indexOf b := by
      intro he
      apply hne
      have h1 : keys[keys.indexOf a]? = some a := by
        rw [List.getElem?_eq_getElem hia, List.getElem_indexOf hia]
      have h2 : keys[keys.indexOf b]? = some b := by
        rw [List.getElem?_eq_getElem hib, List.getElem_indexOf hib]
      rw [he, h2] at h1
      exact (Option.some_inj.mp h1).symm
    rcases Nat.lt_or_ge (keys.indexOf a) (keys.indexOf b) with h | h
    · exact h
    · rcases Nat.eq_or_lt_of_le h with h2 | h2
      · exact absurd h2.symm hne2
      · have hR := List.pairwise_iff_getElem.mp hpair (keys.indexOf b) (keys.indexOf a) hib hia h2
        rw [List.getElem_indexOf hia, List.getElem_indexOf hib] at hR
        rw [hR] at hlt
        exact absurd hlt Bool.false_ne_true

/-! ### compact_text in terms of the source code shape -/

theorem compactList_eq_map : ∀ items : List JValue, compactList items = items.map compact_text := by
  intro items
  induction items with
  | nil => rfl
  | cons v vs ih => rw [compactList, ih, List.map_cons]

theorem compactPairs_eq_map :
    ∀ ps : List (String × JValue),
      compactPairs ps = ps.map (fun p => (p.1, compact_text p.2)) := by
  intro ps
  induction ps with
  | nil => rfl
  | cons p ps ih => rw [compactPairs, ih, List.map_cons]

theorem compactPairs_find (fields : List (String × JValue)) (k : String) :
    (((compactPairs fields).find? (fun p => p.1 == k)).map (·.2)).getD "" =
      compact_text (jget fields k) := by
  rw [compactPairs_eq_map, List.find?_map]
  have hfun : ((fun p : String × String => p.1 == k) ∘ fun p : String × JValue =>
      (p.1, compact_text p.2)) = (fun p : String × JValue => p.1 == k) := by
    funext p
    rfl
  rw [hfun, jget]
  rcases h : fields.find? (fun p => p.1 == k) with _ | p <;> rw [h] <;> rfl

/-- C5: the text-normalization function `compact_text` satisfies, for
every JSON value: None yields the empty string; a string yields itself
trimmed; an int, float, or bool yields its string form; a list yields
its items' normalized texts joined with "; " after dropping empty
results; a mapping whose `en` or `zh` key normalizes to non-empty text
yields those (at most two) texts joined with a single space; any other
mapping yields its "key: value" pairs (dropping pairs whose value
normalizes to empty) joined with "; ". The remaining clause of the
claim ("any other value yields its string form trimmed") is vacuous:
the listed shapes exhaust the values `json.loads` can produce. -/
theorem c5_compact_text_normalization :
    (compact_text JValue.null = "") ∧
    (∀ s, compact_text (JValue.str s) = pyStrip s) ∧
    (∀ n : Int, compact_text (JValue.int n) = toString n) ∧
    (∀ r, compact_text (JValue.float r) = r) ∧
    (∀ b, compact_text (JValue.bool b) = pyStrBool b) ∧
    (∀ items, compact_text (JValue.arr items) =
      String.intercalate "; " ((items.map compact_text).filter (fun t => t ≠ ""))) ∧
    (∀ fields, compact_text (jget fields "en") ≠ "" ∨ compact_text (jget fields "zh") ≠ "" →
      compact_text (JValue.obj fields) =
        String.intercalate " "
          (([compact_text (jget fields "en"), compact_text (jget fields "zh")]).filter
            (fun t => t ≠ ""))) ∧
    (∀ fields, ¬ (compact_text (jget fields "en") ≠ "" ∨ compact_text (jget fields "zh") ≠ "") →
      compact_text (JValue.obj fields) =
        String.intercalate "; "
          (((fields.map (fun p => (p.1, compact_text p.2))).filter
            (fun p => p.2 ≠ "")).map (fun p => p.1 ++ ": " ++ p.2))) := by
  refine ⟨rfl, fun s => rfl, fun n => rfl, fun r => rfl, fun b => rfl, ?_, ?_, ?_⟩
  · intro items
    rw [compact_text, compactList_eq_map]
  · intro fields h
    rw [compact_text]
    simp only [compactPairs_find] at *
    rw [if_pos h]
  · intro fields h
    rw [compact_text]
    simp only [compactPairs_find] at *
    rw [if_neg h, compactPairs_eq_map]

/-- Witness for C5 at concrete inputs: a bilingual mapping takes the
en/zh branch and a plain mapping takes the key-value branch. -/
theorem c5_compact_text_normalization_witness :
    (compact_text (jget [("en", JValue.str "hi")] "en") ≠ "" ∨
        compact_text (jget [("en", JValue.str "hi")] "zh") ≠ "") ∧
    compact_text (JValue.obj [("en", JValue.str "hi")]) = "hi" ∧
    ¬ (compact_text (jget [("k", JValue.str "v")] "en") ≠ "" ∨
        compact_text (jget [("k", JValue.str "v")] "zh") ≠ "") ∧
    compact_text (JValue.obj [("k", JValue.str "v")]) = "k: v" := by
  have h1 : compact_text (jget [("en", JValue.str "hi")] "en") ≠ "" ∨
      compact_text (jget [("en", JValue.str "hi")] "zh") ≠ "" := by
    left
    simp [jget, List.find?, compact_text]
    decide
  have h2 : ¬ (compact_text (jget [("k", JValue.str "v")] "en") ≠ "" ∨
      compact_text (jget [("k", JValue.str "v")] "zh") ≠ "") := by
    simp [jget, List.find?, compact_text]
  refine ⟨h1, ?_, h2, ?_⟩
  · rw [(c5_compact_text_normalization.2.2.2.2.2.2.1) [("en", JValue.str "hi")] h1]
    simp [jget, List.find?, compact_text]
    decide
  · rw [(c5_compact_text_normalization.2.2.2.2.2.2.2) [("k", JValue.str "v")] h2]
    simp [compact_text]
    decide

/-! ### Final-state facts shared by C1 and C3 -/

theorem setAll_nil_get (ps : List (String × String)) (w : String) :
    dictGet (setAll [] ps) w = lastValue ps w := by
  rw [dictGet_setAll]
  have : dictGet [] w = none := rfl
  rw [this, Option.or_none]

theorem setAll_nil_length (ps : List (String × String)) :
    (setAll [] ps).length = (ps.map Prod.fst).dedup.length := by
  have hnd : ((setAll [] ps).map Prod.fst).Nodup := setAll_nodup ps [] (by simp)
  have hmem : ∀ w, w ∈ (setAll [] ps).map Prod.fst ↔ w ∈ ps.map Prod.fst := by
    intro w
    rw [mem_setAll_keys]
    simp
  calc (setAll [] ps).length = ((setAll [] ps).map Prod.fst).length := by simp
    _ = (ps.map Prod.fst).dedup.length := length_eq_dedup_length hnd hmem

theorem lastValue_map (f : Record → String × String) (hf : ∀ r, (f r).1 = r.1)
    (rs : List Record) (w : String) :
    lastValue (rs.map f) w =
      ((rs.filter (fun r => r.1 == w)).getLast?).map (fun r => (f r).2) := by
  rw [lastValue, List.filter_map]
  have hfun : ((fun p : String × String => p.1 == w) ∘ f) = fun r : Record => r.1 == w := by
    funext r
    simp [hf r]
  rw [hfun, List.getLast?_map, Option.map_map]
  rfl

theorem recPairs_fst (f : Record → String × String) (hf : ∀ r, (f r).1 = r.1)
    (rs : List Record) :
    (rs.map f).map Prod.fst = rs.map (fun r => r.1) := by
  rw [List.map_map]
  refine List.map_congr_left ?_
  intro r _
  exact hf r

/-! ### Concrete fixtures -/

/-- The line `{"word":"cat","x":1}` with its true json.loads result. -/
def lineCat1 : Line :=
  ⟨"\x7b\"word\":\"cat\",\"x\":1\x7d\n", .ok (.obj [("word", .str "cat"), ("x", .int 1)])⟩

/-- The line `{"word":"cat","x":2}` with its true json.loads result. -/
def lineCat2 : Line :=
  ⟨"\x7b\"word\":\"cat\",\"x\":2\x7d\n", .ok (.obj [("word", .str "cat"), ("x", .int 2)])⟩

/-- One shard file holding the two cat lines. -/
def catFiles : List (String × List Line) :=
  [("data/cat.ndjson", [lineCat1, lineCat2])]

/-- The validated records of `catFiles`. -/
def catRecords : List Record :=
  [("cat", [("word", .str "cat"), ("x", .int 1)], "\x7b\"word\":\"cat\",\"x\":1\x7d"),
   ("cat", [("word", .str "cat"), ("x", .int 2)], "\x7b\"word\":\"cat\",\"x\":2\x7d")]

/-- C1: for every sequence of valid records in file-then-line order,
a repeated word keeps only its last occurrence: the accumulator maps
the word to the rendering of the last record, the table stores the
last stripped line, and the overwrite counter counts exactly the
duplicate occurrences beyond the first
(records.length minus the number of distinct words). -/
theorem c1_last_write_wins :
    ∀ (files : List (String × List Line)) (records : List Record) (bs : Nat),
      extractFiles files = some records →
      ∃ st fin, load_entries0 files = .ok st ∧ import_rows bs files = .ok fin ∧
        (∀ w, dictGet st.entries w =
          ((records.filter (fun r => r.1 == w)).getLast?).map
            (fun r => render_entry r.1 r.2.1)) ∧
        (∀ w, dictGet fin.table w =
          ((records.filter (fun r => r.1 == w)).getLast?).map (fun r => r.2.2)) ∧
        st.overwritten + ((records.map (fun r => r.1)).dedup).length = records.length := by
  intro files records bs hex
  have hload := load_entries_ok files records ⟨[], 0⟩ hex
  have himp := import_rows_ok bs files records hex
  refine ⟨records.foldl mdxStep ⟨[], 0⟩, ⟨setAll [] (records.map sqlRecPair), records.length⟩,
    hload, himp, ?_, ?_, ?_⟩
  · intro w
    rw [mdxFold_entries records ⟨[], 0⟩]
    show dictGet (setAll [] (records.map mdxRecPair)) w = _
    rw [setAll_nil_get, lastValue_map mdxRecPair (fun r => rfl)]
    rfl
  · intro w
    show dictGet (setAll [] (records.map sqlRecPair)) w = _
    rw [setAll_nil_get, lastValue_map sqlRecPair (fun r => rfl)]
    rfl
  · have hc := mdxFold_counter records ⟨[], 0⟩
    have hlen : (records.foldl mdxStep ⟨[], 0⟩).entries.length =
        ((records.map (fun r => r.1)).dedup).length := by
      rw [mdxFold_entries records ⟨[], 0⟩]
      show (setAll [] (records.map mdxRecPair)).length = _
      rw [setAll_nil_length, recPairs_fst mdxRecPair (fun r => rfl)]
    simp at hc
    rw [hlen] at hc
    omega

/-- Witness for C1 on a file with the same word on two lines. -/
theorem c1_last_write_wins_witness :
    extractFiles catFiles = some catRecords ∧
    (∃ st fin, load_entries0 catFiles = .ok st ∧ import_rows 1000 catFiles = .ok fin ∧
      (∀ w, dictGet st.entries w =
        ((catRecords.filter (fun r => r.1 == w)).getLast?).map
          (fun r => render_entry r.1 r.2.1)) ∧
      (∀ w, dictGet fin.table w =
        ((catRecords.filter (fun r => r.1 == w)).getLast?).map (fun r => r.2.2)) ∧
      st.overwritten + ((catRecords.map (fun r => r.1)).dedup).length = catRecords.length) :=
  ⟨by rfl, c1_last_write_wins catFiles catRecords 1000 (by rfl)⟩

/-- C3: on a successful run every stored word is non-empty, the output
holds no duplicate words (case-sensitive), and the number of stored
words equals the number of distinct `word` values over all input lines,
in both pipelines. -/
theorem c3_output_invariants :
    ∀ (files : List (String × List Line)) (records : List Record) (bs : Nat),
      extractFiles files = some records →
      ∃ st fin, load_entries0 files = .ok st ∧ import_rows bs files = .ok fin ∧
        (st.entries.map Prod.fst).Nodup ∧
        (∀ w ∈ st.entries.map Prod.fst, w ≠ "") ∧
        st.entries.length = ((records.map (fun r => r.1)).dedup).length ∧
        (fin.table.map Prod.fst).Nodup ∧
        (∀ w ∈ fin.table.map Prod.fst, w ≠ "") ∧
        fin.table.length = ((records.map (fun r => r.1)).dedup).length := by
  intro files records bs hex
  have hload := load_entries_ok files records ⟨[], 0⟩ hex
  have himp := import_rows_ok bs files records hex
  have hwords := extractFiles_words_nonempty files records hex
  have hmemwords : ∀ (f : Record → String × String), (∀ r, (f r).1 = r.1) →
      ∀ w ∈ (setAll [] (records.map f)).map Prod.fst, w ≠ "" := by
    intro f hf w hw
    rw [mem_setAll_keys] at hw
    rcases hw with hw | hw
    · cases hw
    · rw [recPairs_fst f hf] at hw
      rcases List.mem_map.mp hw with ⟨r, hr, hrw⟩
      rw [← hrw]
      exact hwords r hr
  refine ⟨records.foldl mdxStep ⟨[], 0⟩, ⟨setAll [] (records.map sqlRecPair), records.length⟩,
    hload, himp, ?_, ?_, ?_, ?_, ?_, ?_⟩
  · rw [mdxFold_entries records ⟨[], 0⟩]
    exact setAll_nodup _ [] (by simp)
  · rw [mdxFold_entries records ⟨[], 0⟩]
    exact hmemwords mdxRecPair (fun r => rfl)
  · rw [mdxFold_entries records ⟨[], 0⟩]
    show (setAll [] (records.map mdxRecPair)).length = _
    rw [setAll_nil_length, recPairs_fst mdxRecPair (fun r => rfl)]
  · exact setAll_nodup _ [] (by simp)
  · exact hmemwords sqlRecPair (fun r => rfl)
  · show (setAll [] (records.map sqlRecPair)).length = _
    rw [setAll_nil_length, recPairs_fst sqlRecPair (fun r => rfl)]

/-- Witness for C3 on the duplicate-word fixture: one stored row. -/
theorem c3_output_invariants_witness :
    extractFiles catFiles = some catRecords ∧
    (∃ st fin, load_entries0 catFiles = .ok st ∧ import_rows 7 catFiles = .ok fin ∧
      (st.entries.map Prod.fst).Nodup ∧
      (∀ w ∈ st.entries.map Prod.fst, w ≠ "") ∧
      st.entries.length = ((catRecords.map (fun r => r.1)).dedup).length ∧
      (fin.table.map Prod.fst).Nodup ∧
      (∀ w ∈ fin.table.map Prod.fst, w ≠ "") ∧
      fin.table.length = ((catRecords.map (fun r => r.1)).dedup).length) :=
  ⟨by rfl, c3_output_invariants catFiles catRecords 7 (by rfl)⟩

/-- A whitespace-only line. -/
def blankLine : Line := ⟨"  \n", .ok .null⟩

/-- A line whose text does not parse as JSON; the oracle carries the
json.JSONDecodeError message. -/
def badJsonLine : Line := ⟨"nope\n", .error "Expecting value"⟩

/-- C2: in both pipelines a whitespace-only line is skipped (only the
line counter advances), and a non-blank line that fails to parse,
parses to a non-object, or lacks a non-empty string `word` aborts the
whole run with an error message containing the file path and the
1-based line number; an error in the per-file loop propagates to the
whole-run loop unchanged, so no skip-and-continue behavior exists. -/
theorem c2_validation_aborts :
    (∀ (fp : String) (l : Line) (rest : List Line) (n : Nat) (st : MdxState),
      pyStrip l.raw = "" →
      loadLines fp (l :: rest) n st = loadLines fp rest (n + 1) st) ∧
    (∀ (bs : Nat) (fp : String) (l : Line) (rest : List Line) (n : Nat) (st : SqlState),
      pyStrip l.raw = "" →
      importLines bs fp (l :: rest) n st = importLines bs fp rest (n + 1) st) ∧
    (∀ (fp : String) (l : Line) (rest : List Line) (n : Nat) (st : MdxState),
      pyStrip l.raw ≠ "" → lineViolation l = true →
      ∃ pre post,
        loadLines fp (l :: rest) n st = .error (pre ++ (fp ++ ":" ++ toString n) ++ post)) ∧
    (∀ (bs : Nat) (fp : String) (l : Line) (rest : List Line) (n : Nat) (st : SqlState),
      pyStrip l.raw ≠ "" → lineViolation l = true →
      ∃ pre post,
        importLines bs fp (l :: rest) n st = .error (pre ++ (fp ++ ":" ++ toString n) ++ post)) ∧
    (∀ (fp : String) (lines : List Line) (fs : List (String × List Line)) (st : MdxState)
        (e : String),
      loadLines fp lines 1 st = .error e → load_entries ((fp, lines) :: fs) st = .error e) ∧
    (∀ (bs : Nat) (fp : String) (lines : List Line) (fs : List (String × List Line))
        (st : SqlState) (e : String),
      importLines bs fp lines 1 st = .error e →
        importFiles bs ((fp, lines) :: fs) st = .error e) := by
  refine ⟨?_, ?_, ?_, ?_, ?_, ?_⟩
  · intro fp l rest n st h
    exact loadLines_blank fp n st h
  · intro bs fp l rest n st h
    exact importLines_blank bs fp n st h
  · intro fp l rest n st hb hv
    exact loadLines_violation fp n st hb hv
  · intro bs fp l rest n st hb hv
    exact importLines_violation bs fp n st hb hv
  · intro fp lines fs st e h
    rw [load_entries, h]
  · intro bs fp lines fs st e h
    rw [importFiles, h]

/-- Witness for C2: a blank line is skipped, a malformed line aborts
with the location in the message, and the abort propagates. -/
theorem c2_validation_aborts_witness :
    (pyStrip blankLine.raw = "" ∧
      loadLines "data/a.ndjson" [blankLine] 1 ⟨[], 0⟩ =
        loadLines "data/a.ndjson" [] 2 ⟨[], 0⟩) ∧
    (pyStrip badJsonLine.raw ≠ "" ∧ lineViolation badJsonLine = true ∧
      ∃ pre post,
        loadLines "data/a.ndjson" [badJsonLine] 5 ⟨[], 0⟩ =
          .error (pre ++ ("data/a.ndjson" ++ ":" ++ toString 5) ++ post)) ∧
    (∃ pre post,
      importLines 1000 "data/a.ndjson" [badJsonLine] 5 ⟨[], [], 0⟩ =
        .error (pre ++ ("data/a.ndjson" ++ ":" ++ toString 5) ++ post)) ∧
    load_entries [("data/a.ndjson", [badJsonLine])] ⟨[], 0⟩ =
      .error "ERROR: invalid JSON at data/a.ndjson:1: Expecting value" ∧
    importFiles 1000 [("data/a.ndjson", [badJsonLine])] ⟨[], [], 0⟩ =
      .error "ERROR: invalid JSON at data/a.ndjson:1: Expecting value" := by
  refine ⟨⟨by rfl, ?_⟩, ⟨by decide, by rfl, ?_⟩, ?_, ?_, ?_⟩
  · exact c2_validation_aborts.1 "data/a.ndjson" blankLine [] 1 ⟨[], 0⟩ (by rfl)
  · exact c2_validation_aborts.2.2.1 "data/a.ndjson" badJsonLine [] 5 ⟨[], 0⟩ (by decide) (by rfl)
  · exact c2_validation_aborts.2.2.2.1 1000 "data/a.ndjson" badJsonLine [] 5 ⟨[], [], 0⟩
      (by decide) (by rfl)
  · exact c2_validation_aborts.2.2.2.2.1 "data/a.ndjson" [badJsonLine] [] ⟨[], 0⟩ _ (by rfl)
  · exact c2_validation_aborts.2.2.2.2.2 1000 "data/a.ndjson" [badJsonLine] [] ⟨[], [], 0⟩ _
      (by rfl)

/-- C7: on a directory whose shards hold exactly the two lines
`{"word":"cat","x":1}` then `{"word":"cat","x":2}`, the relational
pipeline reads 2 rows, stores 1 row, and the stored definition of
"cat" is the raw JSON text of the second line, not rendered markup. -/
theorem c7_duplicate_cat_rows :
    ∀ bs : Nat, 1 ≤ bs →
      ∃ fin, import_rows bs catFiles = .ok fin ∧
        fin.read_rows = 2 ∧ fin.table.length = 1 ∧
        dictGet fin.table "cat" = some "\x7b\"word\":\"cat\",\"x\":2\x7d" := by
  intro bs _
  have himp := import_rows_ok bs catFiles catRecords (by rfl)
  exact ⟨_, himp, by rfl, by decide, by decide⟩

/-- Witness for C7 at the default batch size. -/
theorem c7_duplicate_cat_rows_witness :
    (1 ≤ 1000) ∧
    ∃ fin, import_rows 1000 catFiles = .ok fin ∧
      fin.read_rows = 2 ∧ fin.table.length = 1 ∧
      dictGet fin.table "cat" = some "\x7b\"word\":\"cat\",\"x\":2\x7d" :=
  ⟨by decide, c7_duplicate_cat_rows 1000 (by decide)⟩

/-- C8: when some input line is malformed, both runs abort; the
document pipeline leaves whatever was at the output path untouched,
and the relational pipeline leaves a database whose `words` table
holds no committed rows (the pre-existing file was unlinked and the
insert transaction rolls back). -/
theorem c8_no_output_on_abort :
    ∀ (files : List (String × List Line)) (prior_mdx : Option (List (String × String)))
      (prior_db : Option SqliteDb) (bs : Nat),
      extractFiles files = none → 1 ≤ bs →
      (∃ e, mdx_main files prior_mdx = (.error e, prior_mdx)) ∧
      (∃ e, sqlite_main files prior_db bs = (.error e, some ⟨[]⟩)) := by
  intro files prior_mdx prior_db bs hex hbs
  have hne : files.isEmpty = false := by
    cases files with
    | nil =>
        rw [extractFiles] at hex
        cases hex
    | cons f fs => rfl
  have hbs2 : ¬ (bs < 1) := by omega
  rcases load_entries_error files ⟨[], 0⟩ hex with ⟨e1, he1⟩
  rcases import_rows_error bs files hex with ⟨e2, he2⟩
  constructor
  · refine ⟨e1, ?_⟩
    rw [mdx_main, hne]
    have : load_entries0 files = .error e1 := he1
    rw [this]
    rfl
  · refine ⟨e2, ?_⟩
    rw [sqlite_main, if_neg hbs2, hne]
    rw [he2]
    rfl

/-- Witness for C8 on a one-line malformed input over a pre-existing
database. -/
theorem c8_no_output_on_abort_witness :
    extractFiles [("data/a.ndjson", [badJsonLine])] = none ∧ (1 ≤ 1000) ∧
    ((∃ e, mdx_main [("data/a.ndjson", [badJsonLine])] (some [("old", "entry")]) =
        (.error e, some [("old", "entry")])) ∧
      (∃ e, sqlite_main [("data/a.ndjson", [badJsonLine])] (some ⟨[("old", "row")]⟩) 1000 =
        (.error e, some ⟨[]⟩))) :=
  ⟨by rfl, by decide,
    c8_no_output_on_abort [("data/a.ndjson", [badJsonLine])] (some [("old", "entry")])
      (some ⟨[("old", "row")]⟩) 1000 (by rfl) (by decide)⟩

/-- C4: the document pipeline emits the accumulated entries sorted
ascending by the key pair (lowercased word, original word): the sorted
output is a permutation of the accumulated entries, and for words a, b
of the output, a precedes b exactly when lower(a) < lower(b), or
lower(a) = lower(b) and a < b by raw string comparison. -/
theorem c4_sorted_output :
    ∀ (files : List (String × List Line)) (records : List Record),
      extractFiles files = some records →
      ∃ st, load_entries0 files = .ok st ∧
        (sortEntries st.entries).Perm st.entries ∧
        (∀ a b, a ∈ (sortEntries st.entries).map Prod.fst →
          b ∈ (sortEntries st.entries).map Prod.fst →
          (((sortEntries st.entries).map Prod.fst).indexOf a <
              ((sortEntries st.entries).map Prod.fst).indexOf b ↔
            (pyLt (pyLower a) (pyLower b) = true ∨
              (pyLower a = pyLower b ∧ pyLt a b = true)))) := by
  intro files records hex
  have hload := load_entries_ok files records ⟨[], 0⟩ hex
  refine ⟨records.foldl mdxStep ⟨[], 0⟩, hload, sortEntries_perm _, ?_⟩
  set entries := (records.foldl mdxStep ⟨[], 0⟩).entries with hentries
  have hnd : (entries.map Prod.fst).Nodup := by
    rw [hentries, mdxFold_entries records ⟨[], 0⟩]
    exact setAll_nodup _ [] (by simp)
  have hnds : ((sortEntries entries).map Prod.fst).Nodup := by
    have hperm := (sortEntries_perm entries).map Prod.fst
    exact hperm.nodup_iff.mpr hnd
  have hpair : ((sortEntries entries).map Prod.fst).Pairwise
      (fun a b => wordKeyLt b a = false) := by
    rw [List.pairwise_map]
    have h := sortEntries_pairwise entries
    refine h.imp ?_
    intro a b hab
    rw [Bool.not_eq_true', entryKeyLt_eq_wordKeyLt] at hab
    exact hab
  intro a b ha hb
  rw [keys_index_iff hnds hpair a b ha hb]
  simp [wordKeyLt, Bool.or_eq_true, Bool.and_eq_true, beq_iff_eq]

/-- Witness for C4 on a small accumulated set with case-variant words. -/
theorem c4_sorted_output_witness :
    extractFiles [("data/w.ndjson",
      [⟨"\x7b\"word\":\"Banana\"\x7d\n", .ok (.obj [("word", .str "Banana")])⟩,
       ⟨"\x7b\"word\":\"apple\"\x7d\n", .ok (.obj [("word", .str "apple")])⟩,
       ⟨"\x7b\"word\":\"cherry\"\x7d\n", .ok (.obj [("word", .str "cherry")])⟩])] =
      some [("Banana", [("word", .str "Banana")], "\x7b\"word\":\"Banana\"\x7d"),
            ("apple", [("word", .str "apple")], "\x7b\"word\":\"apple\"\x7d"),
            ("cherry", [("word", .str "cherry")], "\x7b\"word\":\"cherry\"\x7d")] ∧
    ∃ st, load_entries0 [("data/w.ndjson",
      [⟨"\x7b\"word\":\"Banana\"\x7d\n", .ok (.obj [("word", .str "Banana")])⟩,
       ⟨"\x7b\"word\":\"apple\"\x7d\n", .ok (.obj [("word", .str "apple")])⟩,
       ⟨"\x7b\"word\":\"cherry\"\x7d\n", .ok (.obj [("word", .str "cherry")])⟩])] = .ok st ∧
      (sortEntries st.entries).Perm st.entries ∧
      (∀ a b, a ∈ (sortEntries st.entries).map Prod.fst →
        b ∈ (sortEntries st.entries).map Prod.fst →
        (((sortEntries st.entries).map Prod.fst).indexOf a <
            ((sortEntries st.entries).map Prod.fst).indexOf b ↔
          (pyLt (pyLower a) (pyLower b) = true ∨
            (pyLower a = pyLower b ∧ pyLt a b = true)))) :=
  ⟨by rfl, c4_sorted_output _ _ (by rfl)⟩

/-! ### C6: optional sections -/

theorem append_ne_empty_left (a b : String) (ha : a ≠ "") : a ++ b ≠ "" := by
  intro h
  apply ha
  have hd : (a ++ b).data = ([] : List Char) := by
    rw [h]
  rw [String.data_append] at hd
  rcases List.append_eq_nil.mp hd with ⟨h1, _⟩
  exact str_ext h1

/-- C6 as stated is false: with `definitions = [""]` the definitions
section appears in the rendered output even though the field yields no
non-empty item after normalization — the block is an empty
`<section><ol></ol></section>`. -/
theorem c6_counterexample :
    (([JValue.str ""].map compact_text).filter (fun t => t ≠ "")) = [] ∧
    definitionsBlock (jget [("word", JValue.str "a"),
      ("definitions", JValue.arr [JValue.str ""])] "definitions") =
      "<section class=\"section\"><ol></ol></section>" ∧
    render_entry "a" [("word", JValue.str "a"), ("definitions", JValue.arr [JValue.str ""])] =
      "<div class=\"entry\"><h1 class=\"word\">a</h1>"
        ++ "<section class=\"section\"><ol></ol></section>" ++ "</div>" := by
  refine ⟨by simp [compact_text] <;> decide, ?_, ?_⟩
  · simp [definitionsBlock, jget, List.find?, renderDefItem, compact_text, pyStrip] <;> decide
  · simp [render_entry, phoneticSummaryBlock, definitionsBlock, renderDefItem, summaryZh,
      render_phonetic, render_string_list_section, stringListItems, jget, List.find?,
      compact_text, htmlEscape, escapeChars, escapeChar, text_from_value, pyStrip] <;> decide

/-- C6 amended: the phonetic/summary line and the two labeled sections
(related terms, supplementary notes) render exactly when they yield at
least one non-empty item after normalization, and every rendered item
is non-empty; the definitions section renders exactly when the
`definitions` field is a non-empty JSON list — even when all its items
normalize to empty text. -/
theorem c6_amended_sections :
    (∀ payload : List (String × JValue),
      phoneticSummaryBlock payload ≠ "" ↔
        (([render_phonetic (jget payload "phonetic"),
          summaryZh (jget payload "summary")]).filter (fun t => t ≠ "")) ≠ []) ∧
    (∀ (title : String) (v : JValue),
      render_string_list_section title v ≠ "" ↔ stringListItems v ≠ []) ∧
    (∀ (v : JValue) (t : String), t ∈ stringListItems v → t ≠ "") ∧
    (∀ v : JValue, definitionsBlock v ≠ "" ↔ ∃ defs, v = JValue.arr defs ∧ defs ≠ []) := by
  refine ⟨?_, ?_, ?_, ?_⟩
  · intro payload
    rw [phoneticSummaryBlock]
    by_cases hp : ([render_phonetic (jget payload "phonetic"),
        summaryZh (jget payload "summary")]).filter (fun t => t ≠ "") = []
    · rw [if_pos hp]
      exact ⟨fun hc => (hc rfl).elim, fun hne => (hne hp).elim⟩
    · rw [if_neg hp]
      refine ⟨fun _ => hp, fun _ => ?_⟩
      apply append_ne_empty_left
      apply append_ne_empty_left
      decide
  · intro title v
    rw [render_string_list_section]
    by_cases hi : stringListItems v = []
    · rw [if_pos hi]
      exact ⟨fun hc => (hc rfl).elim, fun hne => (hne hi).elim⟩
    · rw [if_neg hi]
      refine ⟨fun _ => hi, fun _ => ?_⟩
      apply append_ne_empty_left
      apply append_ne_empty_left
      apply append_ne_empty_left
      apply append_ne_empty_left
      apply append_ne_empty_left
      apply append_ne_empty_left
      apply append_ne_empty_left
      decide
  · intro v t ht
    cases v with
    | str s =>
        rw [stringListItems] at ht
        by_cases hs : pyStrip s = ""
        · rw [if_pos hs] at ht
          cases ht
        · rw [if_neg hs] at ht
          rw [List.mem_singleton.mp ht]
          exact hs
    | arr xs =>
        rw [stringListItems] at ht
        exact of_decide_eq_true ((List.mem_filter.mp ht).2)
    | null =>
        simp only [stringListItems] at ht
        by_cases hs : compact_text JValue.null = ""
        · rw [if_pos hs] at ht
          cases ht
        · rw [if_neg hs] at ht
          rw [List.mem_singleton.mp ht]
          exact hs
    | bool b =>
        simp only [stringListItems] at ht
        by_cases hs : compact_text (JValue.bool b) = ""
        · rw [if_pos hs] at ht
          cases ht
        · rw [if_neg hs] at ht
          rw [List.mem_singleton.mp ht]
          exact hs
    | int n =>
        simp only [stringListItems] at ht
        by_cases hs : compact_text (JValue.int n) = ""
        · rw [if_pos hs] at ht
          cases ht
        · rw [if_neg hs] at ht
          rw [List.mem_singleton.mp ht]
          exact hs
    | float r =>
        simp only [stringListItems] at ht
        by_cases hs : compact_text (JValue.float r) = ""
        · rw [if_pos hs] at ht
          cases ht
        · rw [if_neg hs] at ht
          rw [List.mem_singleton.mp ht]
          exact hs
    | obj fields =>
        simp only [stringListItems] at ht
        by_cases hs : compact_text (JValue.obj fields) = ""
        · rw [if_pos hs] at ht
          cases ht
        · rw [if_neg hs] at ht
          rw [List.mem_singleton.mp ht]
          exact hs
  · intro v
    cases v with
    | arr defs =>
        rw [definitionsBlock]
        by_cases hd : defs.isEmpty
        · have hdnil : defs = [] := List.isEmpty_iff.mp hd
          simp [hd, hdnil]
        · rw [if_neg hd]
          have hne : defs ≠ [] := fun h => hd (by rw [h]; rfl)
          refine ⟨fun _ => ⟨defs, rfl, hne⟩, fun _ => ?_⟩
          apply append_ne_empty_left
          apply append_ne_empty_left
          apply append_ne_empty_left
          apply append_ne_empty_left
          decide
    | null => simp [definitionsBlock]
    | bool b => simp [definitionsBlock]
    | int n => simp [definitionsBlock]
    | float r => simp [definitionsBlock]
    | str s => simp [definitionsBlock]
    | obj fields => simp [definitionsBlock]

/-- Witness for C6 amended: a one-item related-terms list renders, and
its item is non-empty. -/
theorem c6_amended_sections_witness :
    ("x" ∈ stringListItems (JValue.str "x")) ∧ "x" ≠ "" ∧
    (render_string_list_section "相关词" (JValue.str "x") ≠ "" ↔
      stringListItems (JValue.str "x") ≠ []) :=
  ⟨by simp [stringListItems]; decide,
   c6_amended_sections.2.2.1 (JValue.str "x") "x" (by simp [stringListItems]; decide),
   c6_amended_sections.2.1 "相关词" (JValue.str "x")⟩

/-- C10: an object-valued summary contributes exactly the trimmed text
of its `zh` sub-field to the phonetic/summary line; its `en` text is
never rendered (two payloads that agree everywhere except the `en`
sub-field of an object summary render identically); a summary that is
neither a string nor an object contributes nothing. -/
theorem c10_summary_zh_only :
    (∀ kvs, summaryZh (JValue.obj kvs) = pyStrip (text_from_value (jget kvs "zh"))) ∧
    (summaryZh JValue.null = "" ∧ (∀ b, summaryZh (JValue.bool b) = "") ∧
      (∀ n : Int, summaryZh (JValue.int n) = "") ∧
      (∀ r, summaryZh (JValue.float r) = "") ∧
      (∀ xs, summaryZh (JValue.arr xs) = "")) ∧
    (∀ (w : String) (p1 p2 : List (String × JValue)) (kvs1 kvs2 : List (String × JValue)),
      (∀ k, k ≠ "summary" → jget p1 k = jget p2 k) →
      jget p1 "summary" = JValue.obj kvs1 → jget p2 "summary" = JValue.obj kvs2 →
      jget kvs1 "zh" = jget kvs2 "zh" →
      render_entry w p1 = render_entry w p2) := by
  refine ⟨fun kvs => rfl, ⟨rfl, fun b => rfl, fun n => rfl, fun r => rfl, fun xs => rfl⟩, ?_⟩
  intro w p1 p2 kvs1 kvs2 h hs1 hs2 hzh
  have hph := h "phonetic" (by decide)
  have hdef := h "definitions" (by decide)
  have hsyn := h "synonyms" (by decide)
  have hex := h "extra_explanation" (by decide)
  have hsum : summaryZh (jget p1 "summary") = summaryZh (jget p2 "summary") := by
    rw [hs1, hs2, summaryZh, summaryZh, hzh]
  simp only [render_entry, phoneticSummaryBlock, hph, hdef, hsyn, hex, hsum]

/-- Witness for C10: payloads differing only in the summary `en` text
render the same entry. -/
theorem c10_summary_zh_only_witness :
    ((∀ k, k ≠ "summary" →
        jget [("summary", JValue.obj [("en", JValue.str "one"), ("zh", JValue.str "中")])] k =
          jget [("summary", JValue.obj [("en", JValue.str "two"), ("zh", JValue.str "中")])] k) ∧
      jget [("summary", JValue.obj [("en", JValue.str "one"), ("zh", JValue.str "中")])]
          "summary" = JValue.obj [("en", JValue.str "one"), ("zh", JValue.str "中")] ∧
      jget [("summary", JValue.obj [("en", JValue.str "two"), ("zh", JValue.str "中")])]
          "summary" = JValue.obj [("en", JValue.str "two"), ("zh", JValue.str "中")] ∧
      jget [("en", JValue.str "one"), ("zh", JValue.str "中")] "zh" =
        jget [("en", JValue.str "two"), ("zh", JValue.str "中")] "zh") ∧
    render_entry "hi" [("summary", JValue.obj [("en", JValue.str "one"), ("zh", JValue.str "中")])] =
      render_entry "hi" [("summary", JValue.obj [("en", JValue.str "two"), ("zh", JValue.str "中")])] := by
  have harg : ∀ k, k ≠ "summary" →
      jget [("summary", JValue.obj [("en", JValue.str "one"), ("zh", JValue.str "中")])] k =
        jget [("summary", JValue.obj [("en", JValue.str "two"), ("zh", JValue.str "中")])] k := by
    intro k hk
    have hb : (("summary" : String) == k) = false := by
      rw [beq_eq_false_iff_ne]
      exact fun hh => hk hh.symm
    rw [jget, jget]
    simp [List.find?, hb]
  refine ⟨⟨harg, by rfl, by rfl, by rfl⟩, ?_⟩
  exact c10_summary_zh_only.2.2 "hi" _ _ _ _ harg rfl rfl rfl

/-! ### C9: HTML escaping -/

/-- Scan a character list: every occurrence of the trigger character
must be followed by one of the allowed continuations. -/
def scanOk (trigger : Char) (starts : List (List Char)) : List Char → Bool
  | [] => true
  | c :: rest =>
      (if c = trigger then starts.any (fun t => t.isPrefixOf rest) else true)
        && scanOk trigger starts rest

/-- The tag names render_entry and its helpers ever emit after `<`. -/
def ltStarts : List (List Char) :=
  ["div".data, "/div".data, "h1".data, "/h1".data, "h2".data, "/h2".data,
   "section".data, "/section".data, "ul".data, "/ul".data, "ol".data, "/ol".data,
   "li".data, "/li".data]

/-- Every `<` in the output opens one of the fixed markup tags. -/
def ltOkL (cs : List Char) : Bool :=
  scanOk '<' ltStarts cs

/-- The entity bodies produced by html.escape. -/
def ampEntities : List (List Char) :=
  ["amp;".data, "lt;".data, "gt;".data, "quot;".data, "#x27;".data]

/-- Every `&` in the output starts one of the five escape entities. -/
def ampOkL (cs : List Char) : Bool :=
  scanOk '&' ampEntities cs

theorem isPrefixOf_append_right {t l : List Char} (b : List Char)
    (h : t.isPrefixOf l = true) : t.isPrefixOf (l ++ b) = true := by
  rw [List.isPrefixOf_iff_prefix] at h ⊢
  exact h.trans (List.prefix_append l b)

theorem scanOk_append {trigger : Char} {starts : List (List Char)} :
    ∀ a b : List Char, scanOk trigger starts a = true → scanOk trigger starts b = true →
      scanOk trigger starts (a ++ b) = true := by
  intro a
  induction a with
  | nil => intro b _ hb; exact hb
  | cons c rest ih =>
      intro b ha hb
      rw [scanOk, Bool.and_eq_true] at ha
      rw [List.cons_append, scanOk, Bool.and_eq_true]
      refine ⟨?_, ih b ha.2 hb⟩
      by_cases hc : c = trigger
      · rw [if_pos hc]
        rw [if_pos hc] at ha
        rcases List.any_eq_true.mp ha.1 with ⟨t, ht, hpre⟩
        exact List.any_eq_true.mpr ⟨t, ht, isPrefixOf_append_right b hpre⟩
      · rw [if_neg hc]

theorem scanOk_of_no_trigger {trigger : Char} {starts : List (List Char)} :
    ∀ cs : List Char, (∀ c ∈ cs, c ≠ trigger) → scanOk trigger starts cs = true := by
  intro cs
  induction cs with
  | nil => intro _; rfl
  | cons c rest ih =>
      intro h
      rw [scanOk, Bool.and_eq_true]
      refine ⟨?_, ih (fun x hx => h x (List.mem_cons_of_mem c hx))⟩
      rw [if_neg (h c (List.mem_cons_self c rest))]

theorem escapeChar_no_lt_gt (c : Char) :
    ∀ x ∈ (escapeChar c).data, x ≠ '<' ∧ x ≠ '>' := by
  rw [escapeChar]
  by_cases h1 : c = '&'
  · rw [if_pos h1]; decide
  · rw [if_neg h1]
    by_cases h2 : c = '<'
    · rw [if_pos h2]; decide
    · rw [if_neg h2]
      by_cases h3 : c = '>'
      · rw [if_pos h3]; decide
      · rw [if_neg h3]
        by_cases h4 : c = '"'
        · rw [if_pos h4]; decide
        · rw [if_neg h4]
          by_cases h5 : c = Char.ofNat 39
          · rw [if_pos h5]; decide
          · rw [if_neg h5]
            intro x hx
            have : x = c := by
              have : (Char.toString c).data = [c] := rfl
              rw [this] at hx
              exact List.mem_singleton.mp hx
            rw [this]
            exact ⟨h2, h3⟩

theorem escapeChar_ampOk (c : Char) : ampOkL (escapeChar c).data = true := by
  rw [escapeChar]
  by_cases h1 : c = '&'
  · rw [if_pos h1]; decide
  · rw [if_neg h1]
    by_cases h2 : c = '<'
    · rw [if_pos h2]; decide
    · rw [if_neg h2]
      by_cases h3 : c = '>'
      · rw [if_pos h3]; decide
      · rw [if_neg h3]
        by_cases h4 : c = '"'
        · rw [if_pos h4]; decide
        · rw [if_neg h4]
          by_cases h5 : c = Char.ofNat 39
          · rw [if_pos h5]; decide
          · rw [if_neg h5]
            refine scanOk_of_no_trigger _ ?_
            intro x hx
            have hx2 : x = c := by
              have hd : (Char.toString c).data = [c] := rfl
              rw [hd] at hx
              exact List.mem_singleton.mp hx
            rw [hx2]
            exact h1

theorem escapeChars_data (c : Char) (cs : List Char) :
    (escapeChars (c :: cs)).data = (escapeChar c).data ++ (escapeChars cs).data := by
  rw [escapeChars, String.data_append]

theorem escapeChars_no_lt_gt :
    ∀ cs : List Char, ∀ x ∈ (escapeChars cs).data, x ≠ '<' ∧ x ≠ '>' := by
  intro cs
  induction cs with
  | nil => intro x hx; cases hx
  | cons c rest ih =>
      intro x hx
      rw [escapeChars_data] at hx
      rcases List.mem_append.mp hx with h | h
      · exact escapeChar_no_lt_gt c x h
      · exact ih x h

theorem escapeChars_ampOk : ∀ cs : List Char, ampOkL (escapeChars cs).data = true := by
  intro cs
  induction cs with
  | nil => rfl
  | cons c rest ih =>
      rw [escapeChars_data]
      exact scanOk_append _ _ (escapeChar_ampOk c) ih

theorem htmlEscape_no_lt_gt (s : String) :
    ∀ x ∈ (htmlEscape s).data, x ≠ '<' ∧ x ≠ '>' :=
  escapeChars_no_lt_gt s.data

theorem htmlEscape_ampOk (s : String) : ampOkL (htmlEscape s).data = true :=
  escapeChars_ampOk s.data

theorem htmlEscape_ltOk (s : String) : ltOkL (htmlEscape s).data = true :=
  scanOk_of_no_trigger _ (fun c hc => (htmlEscape_no_lt_gt s c hc).1)

/-- Safe-markup predicate: every `<` opens a fixed tag and every `&`
starts an escape entity. -/
def HtmlOk (s : String) : Prop :=
  ltOkL s.data = true ∧ ampOkL s.data = true

theorem HtmlOk_append {a b : String} (ha : HtmlOk a) (hb : HtmlOk b) : HtmlOk (a ++ b) := by
  constructor
  · rw [ltOkL] at *
    rw [String.data_append]
    exact scanOk_append _ _ ha.1 hb.1
  · rw [ampOkL] at *
    rw [String.data_append]
    exact scanOk_append _ _ ha.2 hb.2

theorem HtmlOk_empty : HtmlOk "" :=
  ⟨rfl, rfl⟩

theorem HtmlOk_escape (s : String) : HtmlOk (htmlEscape s) :=
  ⟨htmlEscape_ltOk s, htmlEscape_ampOk s⟩

theorem str_empty_append (x : String) : "" ++ x = x :=
  str_ext (by rw [String.data_append]; rfl)

theorem strFoldlAppend : ∀ (l : List String) (acc : String),
    l.foldl (fun r s => r ++ s) acc = acc ++ l.foldl (fun r s => r ++ s) "" := by
  intro l
  induction l with
  | nil =>
      intro acc
      simp [List.foldl]
  | cons a l ih =>
      intro acc
      rw [List.foldl_cons, List.foldl_cons, ih (acc ++ a), ih ("" ++ a),
        str_empty_append, strAppendAssoc]

theorem string_join_cons (a : String) (l : List String) :
    String.join (a :: l) = a ++ String.join l := by
  rw [String.join, String.join, List.foldl_cons, str_empty_append, strFoldlAppend]

theorem HtmlOk_join : ∀ l : List String, (∀ x ∈ l, HtmlOk x) → HtmlOk (String.join l) := by
  intro l
  induction l with
  | nil => intro _; exact HtmlOk_empty
  | cons a l ih =>
      intro h
      rw [string_join_cons]
      exact HtmlOk_append (h a (List.mem_cons_self a l))
        (ih (fun x hx => h x (List.mem_cons_of_mem a hx)))

theorem HtmlOk_liMaybe (t : String) :
    HtmlOk (if t = "" then "" else "<li>" ++ htmlEscape t ++ "</li>") := by
  by_cases h : t = ""
  · rw [if_pos h]
    exact HtmlOk_empty
  · rw [if_neg h]
    exact HtmlOk_append (HtmlOk_append ⟨by decide, by decide⟩ (HtmlOk_escape t))
      ⟨by decide, by decide⟩

theorem HtmlOk_section (title : String) (v : JValue) :
    HtmlOk (render_string_list_section title v) := by
  rw [render_string_list_section]
  by_cases hi : stringListItems v = []
  · rw [if_pos hi]
    exact HtmlOk_empty
  · rw [if_neg hi]
    have hjoin : HtmlOk (String.join ((stringListItems v).map
        (fun item => "<li>" ++ htmlEscape item ++ "</li>"))) := by
      refine HtmlOk_join _ ?_
      intro x hx
      rcases List.mem_map.mp hx with ⟨item, _, hxe⟩
      rw [← hxe]
      exact HtmlOk_append (HtmlOk_append ⟨by decide, by decide⟩ (HtmlOk_escape item))
        ⟨by decide, by decide⟩
    exact HtmlOk_append (HtmlOk_append (HtmlOk_append (HtmlOk_append (HtmlOk_append
      (HtmlOk_append ⟨by decide, by decide⟩ (HtmlOk_escape title)) ⟨by decide, by decide⟩)
      ⟨by decide, by decide⟩) hjoin) ⟨by decide, by decide⟩) ⟨by decide, by decide⟩

theorem HtmlOk_renderDefItem (item : JValue) : HtmlOk (renderDefItem item) := by
  cases item with
  | obj fields =>
      rw [renderDefItem]
      refine HtmlOk_append (HtmlOk_append (HtmlOk_append ⟨by decide, by decide⟩ ?_) ?_)
        ⟨by decide, by decide⟩
      · by_cases hl : ([compact_text (jget fields "partOfSpeech"),
            compact_text (jget fields "definition")]).filter (fun part => part ≠ "") = []
        · rw [if_pos hl]
          exact HtmlOk_empty
        · rw [if_neg hl]
          exact HtmlOk_append (HtmlOk_append ⟨by decide, by decide⟩ (HtmlOk_escape _))
            ⟨by decide, by decide⟩
      · rcases hex : jget fields "examples" with _ | b | n | r | s | exs | kvs
        · exact HtmlOk_empty
        · exact HtmlOk_empty
        · exact HtmlOk_empty
        · exact HtmlOk_empty
        · exact HtmlOk_empty
        · show HtmlOk (if exs.isEmpty = true then ""
            else "<ul class=\"examples\">" ++ String.join (exs.map (fun ex =>
              if compact_text ex = "" then ""
              else "<li>" ++ htmlEscape (compact_text ex) ++ "</li>")) ++ "</ul>")
          by_cases he : exs.isEmpty
          · rw [if_pos he]
            exact HtmlOk_empty
          · rw [if_neg he]
            have hjoin : HtmlOk (String.join (exs.map (fun ex =>
                if compact_text ex = "" then ""
                else "<li>" ++ htmlEscape (compact_text ex) ++ "</li>"))) := by
              refine HtmlOk_join _ ?_
              intro x hx
              rcases List.mem_map.mp hx with ⟨ex, _, hxe⟩
              rw [← hxe]
              exact HtmlOk_liMaybe (compact_text ex)
            exact HtmlOk_append (HtmlOk_append ⟨by decide, by decide⟩ hjoin)
              ⟨by decide, by decide⟩
        · exact HtmlOk_empty
  | null => exact HtmlOk_liMaybe (compact_text JValue.null)
  | bool b => exact HtmlOk_liMaybe (compact_text (JValue.bool b))
  | int n => exact HtmlOk_liMaybe (compact_text (JValue.int n))
  | float r => exact HtmlOk_liMaybe (compact_text (JValue.float r))
  | str s => exact HtmlOk_liMaybe (compact_text (JValue.str s))
  | arr xs => exact HtmlOk_liMaybe (compact_text (JValue.arr xs))

theorem HtmlOk_definitionsBlock (v : JValue) : HtmlOk (definitionsBlock v) := by
  cases v with
  | arr defs =>
      rw [definitionsBlock]
      by_cases hd : defs.isEmpty
      · rw [if_pos hd]
        exact HtmlOk_empty
      · rw [if_neg hd]
        have hjoin : HtmlOk (String.join (defs.map renderDefItem)) := by
          refine HtmlOk_join _ ?_
          intro x hx
          rcases List.mem_map.mp hx with ⟨d, _, hxe⟩
          rw [← hxe]
          exact HtmlOk_renderDefItem d
        exact HtmlOk_append (HtmlOk_append (HtmlOk_append (HtmlOk_append
          ⟨by decide, by decide⟩ ⟨by decide, by decide⟩) hjoin) ⟨by decide, by decide⟩)
          ⟨by decide, by decide⟩
  | null => exact HtmlOk_empty
  | bool b => exact HtmlOk_empty
  | int n => exact HtmlOk_empty
  | float r => exact HtmlOk_empty
  | str s => exact HtmlOk_empty
  | obj fields => exact HtmlOk_empty

theorem HtmlOk_phoneticSummaryBlock (payload : List (String × JValue)) :
    HtmlOk (phoneticSummaryBlock payload) := by
  rw [phoneticSummaryBlock]
  by_cases hp : ([render_phonetic (jget payload "phonetic"),
      summaryZh (jget payload "summary")]).filter (fun part => part ≠ "") = []
  · rw [if_pos hp]
    exact HtmlOk_empty
  · rw [if_neg hp]
    exact HtmlOk_append (HtmlOk_append ⟨by decide, by decide⟩ (HtmlOk_escape _))
      ⟨by decide, by decide⟩

theorem HtmlOk_render_entry (w : String) (payload : List (String × JValue)) :
    HtmlOk (render_entry w payload) := by
  rw [render_entry]
  exact HtmlOk_append (HtmlOk_append (HtmlOk_append (HtmlOk_append (HtmlOk_append
    (HtmlOk_append (HtmlOk_append (HtmlOk_append ⟨by decide, by decide⟩
      ⟨by decide, by decide⟩) (HtmlOk_escape w)) ⟨by decide, by decide⟩)
    (HtmlOk_phoneticSummaryBlock payload)) (HtmlOk_definitionsBlock _))
    (HtmlOk_section _ _)) (HtmlOk_section _ _)) ⟨by decide, by decide⟩

/-- C9: every payload-derived fragment is embedded through
`html.escape`, whose output contains no raw `<` or `>` at all and whose
every `&` begins one of the five escape entities; consequently, in the
whole rendered block every `<` opens one of the fixed markup tags and
every `&` begins an escape entity — input data can never contribute an
unescaped `<`, `>` or `&` to the markup. -/
theorem c9_all_text_escaped :
    (∀ s : String,
      ((htmlEscape s).data.all (fun c => !(c = '<') && !(c = '>'))) = true ∧
      ampOkL (htmlEscape s).data = true) ∧
    (∀ (w : String) (payload : List (String × JValue)),
      ltOkL (render_entry w payload).data = true ∧
      ampOkL (render_entry w payload).data = true) := by
  constructor
  · intro s
    refine ⟨?_, htmlEscape_ampOk s⟩
    rw [List.all_eq_true]
    intro c hc
    rcases htmlEscape_no_lt_gt s c hc with ⟨h1, h2⟩
    rw [Bool.and_eq_true, Bool.not_eq_true']
    constructor
    · rw [decide_eq_false_iff_not]
      exact h1
    · rw [Bool.not_eq_true', decide_eq_false_iff_not]
      exact h2
  · intro w payload
    exact HtmlOk_render_entry w payload
